import Mathlib

/-!
# Verification of the GithubCDN SDK core

Shallow embedding of the `GithubCDN` class (`github_cdn_package/src/index.ts`,
shipped inside `USAGE.md`) together with the collaborating GitHub Git-data
store, and proofs of the spec's testable properties over that embedding.

Byte buffers are modelled as `List Nat` (one `Nat` per byte), machine numbers
as `Nat` (all sizes involved are far below 2^53, where JS number arithmetic on
integers is exact), and JSON documents stored in blobs as structured values
with a fallible decoder (a blob that is not a registry/manifest document fails
to decode, which models `JSON.parse` throwing or producing a non-conforming
value).
-/

set_option autoImplicit false

namespace GithubCdn

/-! ## Data model (`types.ts`) -/

/-- `CDNLinks` from `types.ts`. -/
structure CDNLinks where
  cdn : String
  fastly : String
  raw : String
  origin : String
  deriving Repr, DecidableEq

/-- `CDNManifest` from `types.ts`. -/
structure CDNManifest where
  id : String
  fileName : String
  uniqueId : String
  totalChunks : Nat
  chunkSize : Nat
  totalSize : Nat
  mimeType : String
  pathPrefix : String
  uploadedAt : String
  optimized : Bool
  deriving Repr, DecidableEq

/-- `CDNAsset` from `types.ts`.  In a stored registry document the `links`
field may be absent (`list()` injects it when missing via
`a.links || this.resolveLinks(a)`), hence `Option`. -/
structure CDNAsset where
  id : String
  name : String
  size : Nat
  type : String
  path : String
  uploadedAt : String
  links : Option CDNLinks
  deriving Repr, DecidableEq

/-- `CDNProgress` from `types.ts`. -/
structure CDNProgress where
  percentage : Nat
  currentChunk : Nat
  totalChunks : Nat
  loaded : Nat
  total : Nat
  stage : String
  deriving Repr, DecidableEq

/-! ## Chunker (`upload`, step "Pushing chunk i/n")

`upload` splits the input `ArrayBuffer` with
`buffer.slice(i * CHUNK_SIZE, Math.min((i + 1) * CHUNK_SIZE, totalSize))`
for `i = 0 .. totalChunks - 1`, where
`totalChunks = Math.ceil(totalSize / CHUNK_SIZE)`. -/

/-- `const CHUNK_SIZE = 5 * 1024 * 1024` from `upload`. -/
def CHUNK_SIZE : Nat := 5 * 1024 * 1024

/-- `Math.ceil(totalSize / CHUNK_SIZE)`, exact on `Nat`. -/
def totalChunksOf (totalSize : Nat) : Nat :=
  (totalSize + CHUNK_SIZE - 1) / CHUNK_SIZE

/-- `ArrayBuffer.slice(a, b)`: the bytes in positions `[a, b)`. -/
def bufSlice (buffer : List Nat) (a b : Nat) : List Nat :=
  (buffer.drop a).take (b - a)

/-- The ordered list of chunks `upload` cuts the buffer into
(`chunk_1 .. chunk_totalChunks`; index `i` here is the 0-based loop index). -/
def uploadChunks (buffer : List Nat) : List (List Nat) :=
  (List.range (totalChunksOf buffer.length)).map fun i =>
    bufSlice buffer (i * CHUNK_SIZE) (min ((i + 1) * CHUNK_SIZE) buffer.length)

/-- Bytes served for `chunk_i` (1-based) of an uploaded buffer. -/
def chunkBytes (buffer : List Nat) (i : Nat) : List Nat :=
  (uploadChunks buffer).getD (i - 1) []

/-- The `manifest` record literal built in `upload`. -/
def mkManifest (uniqueId name mimeType path nowIso : String) (totalSize : Nat) : CDNManifest :=
  { id := uniqueId, fileName := name, uniqueId := uniqueId,
    totalChunks := totalChunksOf totalSize, chunkSize := CHUNK_SIZE,
    totalSize := totalSize, mimeType := mimeType, pathPrefix := path,
    uploadedAt := nowIso, optimized := true }

/-! ## Association lists

`Map<number, …>` objects (the reconstruction holding map) and the Git object
tables of the store model are embedded as association lists with
first-match lookup. -/

/-- `Map.get` / `Map.has`. -/
def alookup {α : Type} : List (Nat × α) → Nat → Option α
  | [], _ => none
  | p :: rest, k => if p.1 = k then some p.2 else alookup rest k

/-- `Map.delete`. -/
def aremove {α : Type} : List (Nat × α) → Nat → List (Nat × α)
  | [], _ => []
  | p :: rest, k => if p.1 = k then rest else p :: aremove rest k

/-- `Map.set` (replaces an existing key, appends a new one, like a JS `Map`). -/
def ainsert {α : Type} : List (Nat × α) → Nat → α → List (Nat × α)
  | [], k, v => [(k, v)]
  | p :: rest, k, v => if p.1 = k then (k, v) :: rest else p :: ainsert rest k v

/-- The keys of an association list. -/
def akeys {α : Type} (m : List (Nat × α)) : List Nat := m.map Prod.fst

/-! ## ReconstructionEngine (`fetch`)

The `ReadableStream` `start` callback of `fetch` keeps a holding map
`chunkMap`, a next-expected counter `next` (starting at 1), and enqueues
chunks through `controller.enqueue`.  Each `download(i)` completion inserts
the fetched bytes and then drains:
`while (chunkMap.has(next)) { enqueue(get(next)); delete(next); next++ }`. -/

/-- The re-serialization state of one reconstruction. -/
structure ReconState where
  chunkMap : List (Nat × List Nat)
  next : Nat
  emitted : List (List Nat)
  deriving Repr, DecidableEq

/-- State at stream start: empty holding map, `next = 1`, nothing enqueued. -/
def initRecon : ReconState := { chunkMap := [], next := 1, emitted := [] }

/-- The drain loop, with explicit fuel (each iteration removes one map entry,
so `chunkMap.length` fuel always suffices). -/
def drainFuel : Nat → ReconState → ReconState
  | 0, s => s
  | fuel + 1, s =>
    match alookup s.chunkMap s.next with
    | none => s
    | some b =>
      drainFuel fuel
        { chunkMap := aremove s.chunkMap s.next,
          next := s.next + 1,
          emitted := s.emitted ++ [b] }

/-- Completion of `download(i)` with bytes `b`: `chunkMap.set(i, b)` followed
by the drain loop. -/
def arrive (s : ReconState) (i : Nat) (b : List Nat) : ReconState :=
  drainFuel (ainsert s.chunkMap i b).length { s with chunkMap := ainsert s.chunkMap i b }

/-- Run a reconstruction in which every fragment fetch succeeds, delivering
`f i` for `chunk_i`, with fragment completions in the order given by
`order`. -/
def runRecon (f : Nat → List Nat) (order : List Nat) : ReconState :=
  order.foldl (fun s i => arrive s i (f i)) initRecon

/-! ### SourceRacer (`download(i).get()`) -/

/-- Outcome of one `fetch` against one mirror. -/
inductive FetchOutcome
  | ok (bytes : List Nat)
  | httpErr (body : List Nat)
  | netErr
  deriving Repr, DecidableEq

/-- Per-chunk behaviour of the two mirrors (`sources[0]` = public CDN,
`sources[1]` = authenticated raw endpoint). -/
structure MirrorModel where
  primary : Nat → FetchOutcome
  secondary : Nat → FetchOutcome

/-- `get()` inside `download(i)`: try the public CDN, throw on `!r.ok`, and
fall back to the authenticated mirror in the `catch`.  The fallback response
is returned and consumed (`const r = await get(); const b = await
r.arrayBuffer()`) without any `r.ok` check, so a non-ok fallback response
"succeeds" and its error body becomes the chunk bytes; only a *rejected*
fallback fetch (transport failure) propagates as an error. -/
def mirrorGet (mm : MirrorModel) (i : Nat) : Except Unit (List Nat) :=
  match mm.primary i with
  | .ok b => .ok b
  | _ =>
    match mm.secondary i with
    | .ok b => .ok b
    | .httpErr body => .ok body
    | .netErr => .error ()

/-- The bytes `download(i)` would insert for chunk `i` when `get()` does not
reject. -/
def deliveredBytes (mm : MirrorModel) (i : Nat) : List Nat :=
  match mirrorGet mm i with
  | .ok b => b
  | .error _ => []

/-- `true` on `Except.ok`. -/
def exOk {ε α : Type} : Except ε α → Bool
  | .ok _ => true
  | .error _ => false

/-- Project the carried state out of a finished/aborted reconstruction run. -/
def runState : Except ReconState ReconState → ReconState
  | .ok s => s
  | .error s => s

/-- One completion step against the mirror model: a fragment whose `get()`
rejects aborts the stream (the `start` promise rejects) with the state as it
was at that moment — that fragment is never inserted and nothing further is
enqueued. -/
def stepE (mm : MirrorModel) (acc : Except ReconState ReconState) (i : Nat) :
    Except ReconState ReconState :=
  match acc with
  | .error s => .error s
  | .ok s =>
    match mirrorGet mm i with
    | .error _ => .error s
    | .ok b => .ok (arrive s i b)

/-- Run a reconstruction against the mirror model `mm` with fragment
completions in the order `order`. -/
def runReconE (mm : MirrorModel) (order : List Nat) : Except ReconState ReconState :=
  order.foldl (stepE mm) (.ok initRecon)

/-- A mirror pair on which every fragment fetch fails permanently: the public
CDN fetch rejects and the authenticated fallback returns a non-ok response
whose body is the three bytes of `"404"`. -/
def mmFallbackBody : MirrorModel :=
  { primary := fun _ => .netErr, secondary := fun _ => .httpErr [52, 48, 52] }

/-- A mirror pair on which every fragment fetch rejects at the transport
level on both sources. -/
def mmNetErr : MirrorModel :=
  { primary := fun _ => .netErr, secondary := fun _ => .netErr }

/-! ### Concurrency window -/

/-- The in-flight window of `fetch`'s dispatch loop
(`if (workers.length >= 10) await Promise.race(workers)`). -/
def W : Nat := 10

/-- Validity of a completion order `σ` for `n` chunks under the dispatch
discipline: chunk indices are dispatched in order `1..n`, at most `W` in
flight, and a new index is dispatched after each completion; hence after `k`
completions indices `1 .. min n (W + k)` have been dispatched, and the `k`-th
completion must be a dispatched, not-yet-completed index. -/
def validScheduleAux (n : Nat) : List Nat → Nat → List Nat → Bool
  | [], _, _ => true
  | i :: rest, k, seen =>
    decide (1 ≤ i) && decide (i ≤ min n (W + k)) && decide (i ∉ seen) &&
      validScheduleAux n rest (k + 1) (i :: seen)

/-- A completion order the dispatch loop can actually produce. -/
def validSchedule (n : Nat) (σ : List Nat) : Bool :=
  validScheduleAux n σ 0 []

/-- Number of in-flight fetches after `k` completions of an `n`-chunk
reconstruction: `min n (W + k)` dispatched, `k` completed. -/
def inFlightCount (n k : Nat) : Nat := min n (W + k) - k

/-- Invariant of the re-serialization state between completions, for the set
`A` of fragment indices that have arrived so far: everything below `next`
has arrived and been emitted (in index order, with the fetched bytes), and
the holding map holds exactly the arrived indices above `next`. -/
def ReconInv (f : Nat → List Nat) (A : Finset Nat) (s : ReconState) : Prop :=
  1 ≤ s.next ∧
  (∀ i, 1 ≤ i → i < s.next → i ∈ A) ∧
  s.next ∉ A ∧
  s.emitted = (List.range' 1 (s.next - 1)).map f ∧
  (akeys s.chunkMap).Nodup ∧
  (∀ p ∈ s.chunkMap, p.2 = f p.1 ∧ p.1 ∈ A ∧ s.next < p.1) ∧
  (∀ a ∈ A, s.next < a → a ∈ akeys s.chunkMap)

/-- Like `ReconInv` but just after an insertion, before the drain loop has
run: the freshly inserted key may equal `next`. -/
def ReconInvPre (f : Nat → List Nat) (A : Finset Nat) (s : ReconState) : Prop :=
  1 ≤ s.next ∧
  (∀ i, 1 ≤ i → i < s.next → i ∈ A) ∧
  s.emitted = (List.range' 1 (s.next - 1)).map f ∧
  (akeys s.chunkMap).Nodup ∧
  (∀ p ∈ s.chunkMap, p.2 = f p.1 ∧ p.1 ∈ A ∧ s.next ≤ p.1) ∧
  (∀ a ∈ A, s.next ≤ a → a ∈ akeys s.chunkMap)

/-! ## The GitHub Git-data store

External collaborator of every pipeline (`this.request(...)` against
`api.github.com`).  Object ids (blob/tree/commit SHAs) are modelled as `Nat`,
freshly allocated from a counter; JSON blob contents are structured values
with fallible decoding. -/

/-- `String.startsWith`, embedded over the character list so that it is
kernel-computable. -/
def strStartsWith (s pre : String) : Bool := pre.data.isPrefixOf s.data

/-- `String.endsWith`, embedded over the character list so that it is
kernel-computable. -/
def strEndsWith (s suf : String) : Bool := suf.data.isSuffixOf s.data

/-- Content of a stored blob.  `JSON.parse`-based decoding of a blob that is
not the expected kind of document fails (modelling a parse error or a
non-conforming value). -/
inductive Blob
  | raw (bytes : List Nat)
  | registryDoc (assets : List CDNAsset)
  | manifestDoc (m : CDNManifest)
  deriving Repr, DecidableEq

/-- One entry of a (recursively listed) Git tree. -/
structure TreeEntry where
  path : String
  mode : String
  etype : String
  sha : Nat
  deriving Repr, DecidableEq

/-- A Git commit object. -/
structure CommitObj where
  message : String
  treeId : Nat
  parents : List Nat
  deriving Repr, DecidableEq

/-- The remote repository: one branch head, and the blob/tree/commit object
tables.  `fresh` is the id-allocation counter. -/
structure Store where
  head : Nat
  blobs : List (Nat × Blob)
  trees : List (Nat × List TreeEntry)
  commits : List (Nat × CommitObj)
  fresh : Nat
  deriving Repr, DecidableEq

/-- Errors a pipeline run can end in: `apiError` is a non-ok REST response
(`throw new Error(\x60GitHub API Error ...\x60)`), `publishConflict` a rejected
non-fast-forward ref update, `typeError` a thrown JS runtime error
(property access on `undefined`, `JSON.parse` failure, …). -/
inductive GitErr
  | apiError
  | publishConflict
  | typeError
  deriving Repr, DecidableEq

/-- `CDNLog` from `types.ts`. -/
structure CDNLog where
  type : String
  message : String
  logType : Option String
  progress : Option CDNProgress
  asset : Option CDNAsset
  deriving Repr, DecidableEq

/-- State threaded through a pipeline run: the remote store, a counter of
REST requests issued so far, and the `onUpdate` log stream. -/
structure GitSt where
  store : Store
  ctr : Nat
  logs : List CDNLog
  deriving Repr, DecidableEq

/-- A pipeline computation: state in, `Except` result and state out. -/
def GitM (α : Type) : Type := GitSt → Except GitErr α × GitSt

def gpure {α : Type} (a : α) : GitM α := fun s => (.ok a, s)

def gbind {α β : Type} (m : GitM α) (f : α → GitM β) : GitM β := fun s =>
  match m s with
  | (.error e, s') => (.error e, s')
  | (.ok a, s') => f a s'

/-- A thrown (non-request) JS error. -/
def gthrow {α : Type} (e : GitErr) : GitM α := fun s => (.error e, s)

/-- `onUpdate?.(log)`. -/
def emitLog (log : CDNLog) : GitM Unit := fun s =>
  (.ok (), { s with logs := s.logs ++ [log] })

/-- Concurrent interference: before the request numbered `i` is served, an
independent writer may move the branch head.  `noEnv` means no
interference. -/
def applyEnv (env : Nat → Option Nat) (i : Nat) (st : Store) : Store :=
  match env i with
  | some h => { st with head := h }
  | none => st

/-- One REST request: the failure oracle decides whether this request throws
(`!res.ok`); otherwise the effect runs against the (possibly moved) store. -/
def request {α : Type} (oracle : Nat → Bool) (env : Nat → Option Nat)
    (eff : Store → Except GitErr (α × Store)) : GitM α := fun s =>
  let st := applyEnv env s.ctr s.store
  if oracle s.ctr then
    (.error .apiError, { s with store := st, ctr := s.ctr + 1 })
  else
    match eff st with
    | .error e => (.error e, { s with store := st, ctr := s.ctr + 1 })
    | .ok (a, st') => (.ok a, { s with store := st', ctr := s.ctr + 1 })

def noEnv : Nat → Option Nat := fun _ => none

def neverFail : Nat → Bool := fun _ => false

/-- Failure oracle that fails exactly the request numbered `j`. -/
def singleFail (j : Nat) : Nat → Bool := fun i => decide (i = j)

/-- Interference that moves the branch head to `h` just before the request
numbered `k`. -/
def singleEnv (k h : Nat) : Nat → Option Nat := fun i => if i = k then some h else none

/-! ### Store effects (the `api.github.com` endpoints used) -/

/-- `GET /git/refs/heads/{branch}`. -/
def getRefEff : Store → Except GitErr (Nat × Store) := fun st => .ok (st.head, st)

/-- `POST /git/blobs`. -/
def createBlobEff (b : Blob) : Store → Except GitErr (Nat × Store) := fun st =>
  .ok (st.fresh, { st with blobs := (st.fresh, b) :: st.blobs, fresh := st.fresh + 1 })

/-- `GET /git/blobs/{sha}`. -/
def getBlobEff (sha : Nat) : Store → Except GitErr (Blob × Store) := fun st =>
  match alookup st.blobs sha with
  | some b => .ok (b, st)
  | none => .error .apiError

/-- `GET /git/trees/{commitSha}?recursive=1` (trees are stored as their full
recursive listings). -/
def getTreeEff (commitSha : Nat) : Store → Except GitErr (List TreeEntry × Store) := fun st =>
  match alookup st.commits commitSha with
  | none => .error .apiError
  | some c =>
    match alookup st.trees c.treeId with
    | none => .error .apiError
    | some entries => .ok (entries, st)

/-- `POST /git/trees` without `base_tree`: the new tree consists of exactly
the given entries. -/
def createTreeEff (entries : List TreeEntry) : Store → Except GitErr (Nat × Store) := fun st =>
  .ok (st.fresh, { st with trees := (st.fresh, entries) :: st.trees, fresh := st.fresh + 1 })

/-- GitHub tree merge: entries of the base tree whose path is not overridden,
plus the new items. -/
def mergeEntries (base items : List TreeEntry) : List TreeEntry :=
  base.filter (fun e => items.all (fun n => n.path != e.path)) ++ items

/-- `POST /git/trees` with `base_tree` set to a commitish (both `upload` and
`sync` pass the head commit SHA; GitHub peels it to its tree). -/
def createTreeBaseEff (baseCommit : Nat) (items : List TreeEntry) :
    Store → Except GitErr (Nat × Store) := fun st =>
  match alookup st.commits baseCommit with
  | none => .error .apiError
  | some c =>
    match alookup st.trees c.treeId with
    | none => .error .apiError
    | some base =>
        .ok (st.fresh,
          { st with trees := (st.fresh, mergeEntries base items) :: st.trees,
                    fresh := st.fresh + 1 })

/-- `POST /git/commits`. -/
def createCommitEff (message : String) (treeId : Nat) (parents : List Nat) :
    Store → Except GitErr (Nat × Store) := fun st =>
  .ok (st.fresh,
    { st with commits := (st.fresh, { message := message, treeId := treeId,
                                      parents := parents }) :: st.commits,
              fresh := st.fresh + 1 })

/-- Modelled from the spec (§5, §6 `updateRef`) for the remote store's
behaviour of `PATCH /git/refs/heads/{branch}` without `force`: the store
performs a guarded (fast-forward) update, "rejecting an update whose claimed
parent is stale".  The pipelines always pass a freshly created commit whose
sole parent is the head read in step 1, so the guard is: the current head
must be a parent of the new commit; otherwise the update is rejected
(`publishConflict`) and the ref left unchanged. -/
def patchRefEff (commitSha : Nat) : Store → Except GitErr (Unit × Store) := fun st =>
  match alookup st.commits commitSha with
  | none => .error .apiError
  | some c =>
    if st.head ∈ c.parents then .ok ((), { st with head := commitSha })
    else .error .publishConflict

/-- `GET /contents/registry.json`: resolve `registry.json` in the tree of the
current branch head and decode its content as an asset array.  Any miss or
decode failure is an error (which `list()` catches). -/
def getRegistryContentsEff : Store → Except GitErr (List CDNAsset × Store) := fun st =>
  match alookup st.commits st.head with
  | none => .error .apiError
  | some c =>
    match alookup st.trees c.treeId with
    | none => .error .apiError
    | some entries =>
      match entries.find? (fun e => e.path == "registry.json") with
      | none => .error .apiError
      | some e =>
        match alookup st.blobs e.sha with
        | some (.registryDoc assets) => .ok (assets, st)
        | _ => .error .apiError

/-! ### The SDK methods -/

/-- SDK configuration (`CDNConfig`). -/
structure CDNConfig where
  token : String
  owner : String
  repo : String
  branch : String
  userAgent : String
  deriving Repr, DecidableEq

/-- `resolveLinks` of the SDK. -/
def resolveLinks (cfg : CDNConfig) (path : String) : CDNLinks :=
  { cdn := "https://cdn.jsdelivr.net/gh/" ++ cfg.owner ++ "/" ++ cfg.repo ++ "@" ++
      cfg.branch ++ "/" ++ path ++ "/manifest.json",
    fastly := "https://fastly.jsdelivr.net/gh/" ++ cfg.owner ++ "/" ++ cfg.repo ++ "@" ++
      cfg.branch ++ "/" ++ path ++ "/manifest.json",
    raw := "https://raw.githubusercontent.com/" ++ cfg.owner ++ "/" ++ cfg.repo ++ "/" ++
      cfg.branch ++ "/" ++ path ++ "/manifest.json",
    origin := "/api/fetch?file=" ++ path }

/-- `a.links || this.resolveLinks(a)` in `list()`. -/
def injectLinks (cfg : CDNConfig) (a : CDNAsset) : CDNAsset :=
  { a with links := some (a.links.getD (resolveLinks cfg a.path)) }

/-- `list()`: read the registry document, injecting links; the whole body is
inside `try { ... } catch (e) { return [] }`. -/
def listM (cfg : CDNConfig) (oracle : Nat → Bool) (env : Nat → Option Nat) :
    GitM (List CDNAsset) := fun s =>
  match request oracle env getRegistryContentsEff s with
  | (.error _, s') => (.ok [], s')
  | (.ok assets, s') => (.ok (assets.map (injectLinks cfg)), s')

/-- A log entry without progress payload (`emit(message, logType)`). -/
def plainEmit (msg logType : String) : GitM Unit :=
  emitLog { type := "log", message := msg, logType := some logType,
            progress := none, asset := none }

/-- `Math.round((currentChunk / totalChunks) * 100)`: round-half-up of the
exact rational (the JS double computation is exact at these magnitudes);
`0/0` (an empty upload) is NaN in JS, modelled as 0. -/
def roundPct (c n : Nat) : Nat := if n = 0 then 0 else (2 * (c * 100) + n) / (2 * n)

/-- The `CDNProgress` payload built by `upload`'s `emit` helper:
`loaded` is `(progress.currentChunk || 0) * CHUNK_SIZE` — a chunk-count
estimate, not bytes actually transferred. -/
def mkUploadProgress (n size c : Nat) (stage : String) : CDNProgress :=
  { percentage := roundPct c n, currentChunk := c, totalChunks := n,
    loaded := c * CHUNK_SIZE, total := size, stage := stage }

/-- `upload`'s `emit`: a log entry, with a progress payload when the call
site passes `{ currentChunk: c }`. -/
def uploadEmit (n size : Nat) (msg logType : String) (c : Option Nat) : GitM Unit :=
  emitLog { type := "log", message := msg, logType := some logType,
            progress := c.map (fun c => mkUploadProgress n size c msg), asset := none }

/-- `name.replace(/[^a-zA-Z0-9._-]/g, "_")`, over the character list. -/
def sanitizeName (s : String) : String :=
  ⟨s.data.map (fun c =>
    if c.isAlphanum || c == '.' || c == '_' || c == '-' then c else '_')⟩

/-- The asset folder path
`uploads/{yyyy}_{mm}/{uniqueId}_{sanitized name}` (the clock-derived
`{yyyy}_{mm}` part is passed in as `yearMonth`). -/
def uploadPath (yearMonth uniqueId name : String) : String :=
  "uploads/" ++ yearMonth ++ "/" ++ uniqueId ++ "_" ++ sanitizeName name

/-- The `newAsset` record literal built in `upload`. -/
def mkAsset (cfg : CDNConfig) (uniqueId name : String) (size : Nat)
    (mimeType path nowIso : String) : CDNAsset :=
  { id := uniqueId, name := name, size := size, type := mimeType, path := path,
    uploadedAt := nowIso, links := some (resolveLinks cfg path) }

/-- One tree item pushed per chunk: `{path}/chunk_{i+1}`. -/
def chunkEntry (path : String) (i sha : Nat) : TreeEntry :=
  { path := path ++ "/chunk_" ++ toString (i + 1), mode := "100644",
    etype := "blob", sha := sha }

/-- The chunk-upload loop of `upload`: for each 0-based index `i` with its
chunk bytes, emit progress, `POST /git/blobs`, and record the tree item. -/
def pushChunksM (oracle : Nat → Bool) (env : Nat → Option Nat) (n size : Nat)
    (path : String) : List (Nat × List Nat) → GitM (List TreeEntry)
  | [] => gpure []
  | (i, chunk) :: rest =>
    gbind (uploadEmit n size
      ("Pushing chunk " ++ toString (i + 1) ++ "/" ++ toString n ++ "...")
      "process" (some (i + 1))) fun _ =>
    gbind (request oracle env (createBlobEff (.raw chunk))) fun sha =>
    gbind (pushChunksM oracle env n size path rest) fun items =>
    gpure (chunkEntry path i sha :: items)

/-- `upload` (input already resolved to `name`/`mimeType`/`buffer`; the
nondeterministic `uniqueId` and clock values are parameters). -/
def uploadM (cfg : CDNConfig) (oracle : Nat → Bool) (env : Nat → Option Nat)
    (name mimeType : String) (buffer : List Nat)
    (uniqueId yearMonth nowIso : String) : GitM CDNAsset :=
  let totalSize := buffer.length
  let n := totalChunksOf totalSize
  let path := uploadPath yearMonth uniqueId name
  gbind (uploadEmit n totalSize ("Inverting Data: " ++ name) "info" (some 0)) fun _ =>
  gbind (request oracle env getRefEff) fun baseSha =>
  gbind (pushChunksM oracle env n totalSize path
    ((List.range n).zip (uploadChunks buffer))) fun chunkItems =>
  gbind (uploadEmit n totalSize "Finalizing manifest..." "info" (some n)) fun _ =>
  gbind (request oracle env (createBlobEff
    (.manifestDoc (mkManifest uniqueId name mimeType path nowIso totalSize)))) fun mSha =>
  gbind (uploadEmit n totalSize "Synchronizing registry..." "info" none) fun _ =>
  gbind (listM cfg oracle env) fun registry =>
  gbind (request oracle env (createBlobEff
    (.registryDoc (mkAsset cfg uniqueId name totalSize mimeType path nowIso ::
      registry)))) fun rSha =>
  gbind (uploadEmit n totalSize "Creating atomic commit..." "process" none) fun _ =>
  gbind (request oracle env (createTreeBaseEff baseSha
    (chunkItems ++
      [{ path := path ++ "/manifest.json", mode := "100644", etype := "blob", sha := mSha },
       { path := "registry.json", mode := "100644", etype := "blob", sha := rSha }]))) fun treeSha =>
  gbind (request oracle env (createCommitEff ("CDN Upload: " ++ name) treeSha [baseSha])) fun commitSha =>
  gbind (request oracle env (patchRefEff commitSha)) fun _ =>
  gbind (uploadEmit n totalSize "Upload successful." "success" (some n)) fun _ =>
  gbind (emitLog { type := "done", message := "Success", logType := none,
                   progress := none,
                   asset := some (mkAsset cfg uniqueId name totalSize mimeType path nowIso) })
    fun _ =>
  gpure (mkAsset cfg uniqueId name totalSize mimeType path nowIso)

/-- `delete(id, folderPath)`: filter the tree, patch the registry, rebuild
the whole tree (no `base_tree`), commit, advance the ref. -/
def deleteM (oracle : Nat → Bool) (env : Nat → Option Nat)
    (id folderPath : String) : GitM Bool :=
  gbind (plainEmit ("Purging entry: " ++ id) "warning") fun _ =>
  gbind (request oracle env getRefEff) fun headSha =>
  gbind (plainEmit "Filtering repository tree..." "info") fun _ =>
  gbind (request oracle env (getTreeEff headSha)) fun treeData =>
  let filtered := treeData.filter (fun i => !(strStartsWith i.path folderPath))
  gbind (plainEmit "Patching registry index..." "info") fun _ =>
  match filtered.find? (fun i => i.path == "registry.json") with
  | none => gthrow .typeError
  | some regNode =>
    gbind (request oracle env (getBlobEff regNode.sha)) fun regBlob =>
    match regBlob with
    | .registryDoc registry =>
      gbind (request oracle env (createBlobEff
        (.registryDoc (registry.filter (fun a => a.id != id))))) fun newRegSha =>
      gbind (plainEmit "Committing physical scrub..." "process") fun _ =>
      gbind (request oracle env (createTreeEff
        ((filtered.filter (fun i => i.etype == "blob")).map (fun i =>
          if i.path == "registry.json" then
            { path := i.path, mode := i.mode, etype := i.etype, sha := newRegSha }
          else
            { path := i.path, mode := i.mode, etype := i.etype, sha := i.sha })))) fun newTreeSha =>
      gbind (request oracle env (createCommitEff ("Scrub: " ++ id) newTreeSha [headSha])) fun commitSha =>
      gbind (request oracle env (patchRefEff commitSha)) fun _ =>
      gbind (plainEmit "Purge verified." "success") fun _ =>
      gbind (emitLog { type := "done", message := "Asset scrubbing complete.",
                       logType := none, progress := none, asset := none }) fun _ =>
      gpure true
    | _ => gthrow .typeError

/-- The asset `sync` derives from a recovered manifest. -/
def deriveAsset (cfg : CDNConfig) (m : CDNManifest) : CDNAsset :=
  { id := m.id, name := m.fileName, size := m.totalSize, type := m.mimeType,
    path := m.pathPrefix, uploadedAt := m.uploadedAt,
    links := some (resolveLinks cfg m.pathPrefix) }

/-- `sync`'s manifest loop: fetch each candidate blob and decode it as a
manifest. -/
def syncLoopM (cfg : CDNConfig) (oracle : Nat → Bool) (env : Nat → Option Nat) :
    List TreeEntry → GitM (List CDNAsset)
  | [] => gpure []
  | e :: rest =>
    gbind (request oracle env (getBlobEff e.sha)) fun blob =>
    match blob with
    | .manifestDoc data =>
      gbind (syncLoopM cfg oracle env rest) fun others =>
      gpure (deriveAsset cfg data :: others)
    | _ => gthrow .typeError

/-- `sync()`: deep-scan the tree for `manifest.json` entries, derive assets,
republish the registry as a full replacement. -/
def syncM (cfg : CDNConfig) (oracle : Nat → Bool) (env : Nat → Option Nat) : GitM Nat :=
  gbind (plainEmit "Scanning deep structure..." "info") fun _ =>
  gbind (request oracle env getRefEff) fun headSha =>
  gbind (request oracle env (getTreeEff headSha)) fun tree =>
  let manifests := tree.filter (fun i => strEndsWith i.path "manifest.json")
  gbind (plainEmit ("Found " ++ toString manifests.length ++
    " candidate manifests. Re-indexing...") "process") fun _ =>
  gbind (syncLoopM cfg oracle env manifests) fun recovered =>
  gbind (request oracle env (createBlobEff (.registryDoc recovered))) fun rSha =>
  gbind (request oracle env (createTreeBaseEff headSha
    [{ path := "registry.json", mode := "100644", etype := "blob", sha := rSha }])) fun newTreeSha =>
  gbind (request oracle env (createCommitEff "Registry Recon" newTreeSha [headSha])) fun commitSha =>
  gbind (request oracle env (patchRefEff commitSha)) fun _ =>
  gbind (plainEmit ("Recovery complete. " ++ toString recovered.length ++
    " assets synced.") "success") fun _ =>
  gpure recovered.length

/-! ### Observations on stores -/

/-- The (flat) tree of a commit, if it resolves. -/
def treeOfCommit (st : Store) (sha : Nat) : Option (List TreeEntry) :=
  match alookup st.commits sha with
  | none => none
  | some c => alookup st.trees c.treeId

/-- The paths reachable from the current branch head. -/
def pathsOfHead (st : Store) : List String :=
  match treeOfCommit st st.head with
  | none => []
  | some entries => entries.map TreeEntry.path

/-- The decoded registry document reachable from the current branch head. -/
def registryOfHead (st : Store) : Option (List CDNAsset) :=
  match treeOfCommit st st.head with
  | none => none
  | some entries =>
    match entries.find? (fun e => e.path == "registry.json") with
    | none => none
    | some e =>
      match alookup st.blobs e.sha with
      | some (.registryDoc assets) => some assets
      | _ => none

/-- The current head resolves to a commit with an existing tree. -/
def headResolves (st : Store) : Prop := (treeOfCommit st st.head).isSome = true

/-- Decode every entry's blob as a manifest (the premise of C8: "intact"
manifests). -/
def decodeManifests (st : Store) : List TreeEntry → Option (List CDNManifest)
  | [] => some []
  | e :: rest =>
    match alookup st.blobs e.sha with
    | some (.manifestDoc m) => (decodeManifests st rest).map (fun ms => m :: ms)
    | _ => none

/-- Well-formedness: every allocated id is below the allocation counter. -/
def WF (st : Store) : Prop :=
  st.head < st.fresh ∧
  (∀ p ∈ st.blobs, p.1 < st.fresh) ∧
  (∀ p ∈ st.trees, p.1 < st.fresh) ∧
  (∀ p ∈ st.commits, p.1 < st.fresh ∧ p.2.treeId < st.fresh)

instance (st : Store) : Decidable (WF st) := by
  unfold WF
  infer_instance

/-- Store extension: the head is unchanged and every already-allocated id
still resolves to the same object. -/
def StorePres (s s' : Store) : Prop :=
  s'.head = s.head ∧ s.fresh ≤ s'.fresh ∧
  (∀ k, k < s.fresh → alookup s'.blobs k = alookup s.blobs k) ∧
  (∀ k, k < s.fresh → alookup s'.trees k = alookup s.trees k) ∧
  (∀ k, k < s.fresh → alookup s'.commits k = alookup s.commits k)

/-- Every run of `m` extends the store. -/
def PresM {α : Type} (m : GitM α) : Prop :=
  ∀ s, StorePres s.store ((m s).2).store

/-- Every failing run of `m` extends the store. -/
def PresIfErr {α : Type} (m : GitM α) : Prop :=
  ∀ s, exOk ((m s).1) = false → StorePres s.store ((m s).2).store

/-- `m` cannot fail. -/
def NeverErr {α : Type} (m : GitM α) : Prop :=
  ∀ s, exOk ((m s).1) = true

/-- The branch head as it evolves under `singleEnv k h'` interference:
after the requests numbered `0 .. c-1` have been served, the head is `h'`
iff the single move (just before request `k`) has happened. -/
def headTrack (k : Nat) (h' h0 : Nat) (c : Nat) : Nat := if k < c then h' else h0

/-- A log entry whose progress payload (if any) reports
`loaded = currentChunk * CHUNK_SIZE` and `total = size`. -/
def progressGood (size : Nat) (log : CDNLog) : Prop :=
  ∀ p, log.progress = some p → p.loaded = p.currentChunk * CHUNK_SIZE ∧ p.total = size

/-- Every run of `m` only appends logs, and every appended progress payload
is `progressGood`. -/
def LogsGood {α : Type} (size : Nat) (m : GitM α) : Prop :=
  ∀ s, ∃ t, ((m s).2).logs = s.logs ++ t ∧ ∀ log ∈ t, progressGood size log

/-! ### Concrete sample store (used by witnesses) -/

instance {ε α : Type} [DecidableEq ε] [DecidableEq α] : DecidableEq (Except ε α)
  | .ok x, .ok y =>
    if h : x = y then .isTrue (by rw [h]) else .isFalse (fun hh => h (Except.ok.inj hh))
  | .ok _, .error _ => .isFalse (fun hh => Except.noConfusion hh)
  | .error _, .ok _ => .isFalse (fun hh => Except.noConfusion hh)
  | .error e, .error e' =>
    if h : e = e' then .isTrue (by rw [h]) else .isFalse (fun hh => h (Except.error.inj hh))

def sampleManifest : CDNManifest :=
  { id := "a1", fileName := "f.bin", uniqueId := "a1", totalChunks := 1,
    chunkSize := CHUNK_SIZE, totalSize := 3, mimeType := "video/mp4",
    pathPrefix := "uploads/2025_01/a1_f.bin", uploadedAt := "t0", optimized := true }

def sampleAsset : CDNAsset :=
  { id := "a1", name := "f.bin", size := 3, type := "video/mp4",
    path := "uploads/2025_01/a1_f.bin", uploadedAt := "t0", links := none }

/-- A store holding one committed asset (`a1`) and its registry. -/
def sampleStore : Store :=
  { head := 0,
    blobs := [(2, .registryDoc [sampleAsset]), (3, .raw [9, 9, 9]),
              (4, .manifestDoc sampleManifest)],
    trees := [(1,
      [{ path := "registry.json", mode := "100644", etype := "blob", sha := 2 },
       { path := "uploads/2025_01/a1_f.bin/chunk_1", mode := "100644", etype := "blob", sha := 3 },
       { path := "uploads/2025_01/a1_f.bin/manifest.json", mode := "100644", etype := "blob", sha := 4 }])],
    commits := [(0, { message := "init", treeId := 1, parents := [] })],
    fresh := 5 }

def sampleSt : GitSt := { store := sampleStore, ctr := 0, logs := [] }

def sampleCfg : CDNConfig :=
  { token := "t", owner := "o", repo := "r", branch := "main", userAgent := "ua" }

theorem chunkSize_eq : CHUNK_SIZE = 5242880 := rfl

theorem le_totalChunks_mul (L : Nat) : L ≤ totalChunksOf L * CHUNK_SIZE := by
  unfold totalChunksOf
  rw [chunkSize_eq]
  omega

/-- Inside the valid index range, the code's `slice` with the `min` bound is
just "take the next `CHUNK_SIZE` bytes". -/
theorem uploadChunks_eq_take (buffer : List Nat) :
    uploadChunks buffer =
      (List.range (totalChunksOf buffer.length)).map
        (fun i => (buffer.drop (i * CHUNK_SIZE)).take CHUNK_SIZE) := by
  unfold uploadChunks bufSlice
  apply List.map_congr_left
  intro i _
  by_cases h : (i + 1) * CHUNK_SIZE ≤ buffer.length
  · rw [min_eq_left h]
    congr 1
    rw [chunkSize_eq] at *
    omega
  · rw [min_eq_right (le_of_not_le h)]
    have hlen : (buffer.drop (i * CHUNK_SIZE)).length = buffer.length - i * CHUNK_SIZE :=
      List.length_drop _ _
    have h1 : (buffer.drop (i * CHUNK_SIZE)).length ≤ buffer.length - i * CHUNK_SIZE := by
      rw [hlen]
    have h2 : (buffer.drop (i * CHUNK_SIZE)).length ≤ CHUNK_SIZE := by
      rw [hlen, chunkSize_eq]
      rw [chunkSize_eq] at h
      omega
    rw [List.take_of_length_le h1, List.take_of_length_le h2]

theorem flatten_take_drop_chunks :
    ∀ (n : Nat) (l : List Nat), l.length ≤ n * CHUNK_SIZE →
      ((List.range n).map (fun i => (l.drop (i * CHUNK_SIZE)).take CHUNK_SIZE)).flatten = l := by
  intro n
  induction n with
  | zero =>
    intro l hl
    simp only [Nat.zero_mul, Nat.le_zero] at hl
    simp [List.length_eq_zero.mp hl]
  | succ n ih =>
    intro l hl
    rw [List.range_succ_eq_map, List.map_cons, List.map_map, List.flatten_cons]
    have hmap :
        (List.range n).map ((fun i => (l.drop (i * CHUNK_SIZE)).take CHUNK_SIZE) ∘ Nat.succ) =
        (List.range n).map (fun i => ((l.drop CHUNK_SIZE).drop (i * CHUNK_SIZE)).take CHUNK_SIZE) := by
      apply List.map_congr_left
      intro i _
      simp only [Function.comp_apply]
      rw [List.drop_drop, Nat.succ_mul, Nat.add_comm CHUNK_SIZE (i * CHUNK_SIZE)]
    have hlen : (l.drop CHUNK_SIZE).length ≤ n * CHUNK_SIZE := by
      rw [List.length_drop]
      rw [chunkSize_eq] at *
      omega
    rw [hmap, ih (l.drop CHUNK_SIZE) hlen]
    simp [List.take_append_drop]

/-- The number of chunks is `totalChunksOf`. -/
theorem uploadChunks_length (buffer : List Nat) :
    (uploadChunks buffer).length = totalChunksOf buffer.length := by
  simp [uploadChunks]

/-- The lengths of the chunks, in closed form. -/
theorem uploadChunks_map_length (buffer : List Nat) :
    (uploadChunks buffer).map List.length =
      (List.range (totalChunksOf buffer.length)).map
        (fun i => min CHUNK_SIZE (buffer.length - i * CHUNK_SIZE)) := by
  rw [uploadChunks_eq_take]
  rw [List.map_map]
  apply List.map_congr_left
  intro i _
  simp [Function.comp]

/-- Concatenating the chunks in order gives back the buffer. -/
theorem uploadChunks_flatten (buffer : List Nat) :
    (uploadChunks buffer).flatten = buffer := by
  rw [uploadChunks_eq_take]
  exact flatten_take_drop_chunks _ _ (le_totalChunks_mul _)

/-! ### Association-list lemmas -/

theorem alookup_eq_none {α : Type} :
    ∀ {m : List (Nat × α)} {k : Nat}, alookup m k = none ↔ k ∉ akeys m := by
  intro m k
  induction m with
  | nil => simp [alookup, akeys]
  | cons p rest ih =>
    by_cases h : p.1 = k
    · simp [alookup, akeys, h]
    · simp only [alookup, akeys, List.map_cons, List.mem_cons, if_neg h]
      rw [ih]
      unfold akeys
      constructor
      · intro hn hor
        rcases hor with h1 | h2
        · exact h h1.symm
        · exact hn h2
      · intro hn
        exact fun h2 => hn (Or.inr h2)

theorem mem_of_alookup {α : Type} :
    ∀ {m : List (Nat × α)} {k : Nat} {v : α}, alookup m k = some v → (k, v) ∈ m := by
  intro m k v
  induction m with
  | nil => simp [alookup]
  | cons p rest ih =>
    by_cases h : p.1 = k
    · simp only [alookup, if_pos h]
      intro hv
      have hv' : p.2 = v := by injection hv
      have hp : p = (k, v) := by
        obtain ⟨p1, p2⟩ := p
        simp_all
      rw [← hp]
      exact List.mem_cons_self _ _
    · simp only [alookup, if_neg h]
      intro hv
      exact List.mem_cons_of_mem _ (ih hv)

theorem alookup_of_mem_keys {α : Type} {m : List (Nat × α)} {k : Nat}
    (h : k ∈ akeys m) : ∃ v, alookup m k = some v := by
  rcases ho : alookup m k with _ | v
  · exact absurd h (alookup_eq_none.mp ho)
  · exact ⟨v, rfl⟩

theorem aremove_sublist {α : Type} :
    ∀ (m : List (Nat × α)) (k : Nat), (aremove m k).Sublist m := by
  intro m k
  induction m with
  | nil => simp [aremove]
  | cons p rest ih =>
    unfold aremove
    by_cases h : p.1 = k
    · simp only [if_pos h]
      exact List.sublist_cons_self _ _
    · simp only [if_neg h]
      exact List.Sublist.cons₂ _ ih

theorem mem_of_mem_aremove {α : Type} {m : List (Nat × α)} {k : Nat} {p : Nat × α}
    (h : p ∈ aremove m k) : p ∈ m :=
  (aremove_sublist m k).subset h

theorem nodup_akeys_aremove {α : Type} {m : List (Nat × α)} {k : Nat}
    (h : (akeys m).Nodup) : (akeys (aremove m k)).Nodup :=
  List.Nodup.sublist (List.Sublist.map Prod.fst (aremove_sublist m k)) h

theorem mem_akeys_aremove {α : Type} :
    ∀ {m : List (Nat × α)} {k j : Nat}, j ∈ akeys m → j ≠ k → j ∈ akeys (aremove m k) := by
  intro m k j
  induction m with
  | nil => simp [akeys]
  | cons p rest ih =>
    intro hj hne
    simp only [akeys, List.map_cons, List.mem_cons] at hj
    unfold aremove
    by_cases h : p.1 = k
    · simp only [if_pos h]
      rcases hj with h1 | h2
      · exact absurd (h1.trans h) hne
      · exact h2
    · simp only [if_neg h, akeys, List.map_cons, List.mem_cons]
      rcases hj with h1 | h2
      · exact Or.inl h1
      · exact Or.inr (ih h2 hne)

theorem not_mem_akeys_aremove {α : Type} :
    ∀ {m : List (Nat × α)} {k : Nat}, (akeys m).Nodup → k ∉ akeys (aremove m k) := by
  intro m k
  induction m with
  | nil => simp [akeys, aremove]
  | cons p rest ih =>
    intro hnd
    unfold aremove
    by_cases h : p.1 = k
    · simp only [if_pos h]
      have := (List.nodup_cons.mp hnd).1
      rw [h] at this
      exact this
    · simp only [if_neg h]
      unfold akeys
      rw [List.map_cons, List.mem_cons]
      push_neg
      refine ⟨fun hh => h hh.symm, ih (List.nodup_cons.mp hnd).2⟩

theorem length_aremove {α : Type} :
    ∀ {m : List (Nat × α)} {k : Nat}, k ∈ akeys m → (aremove m k).length + 1 = m.length := by
  intro m k
  induction m with
  | nil => simp [akeys]
  | cons p rest ih =>
    intro hk
    unfold aremove
    by_cases h : p.1 = k
    · simp [if_pos h]
    · have hk' : k ∈ akeys rest := by
        rcases List.mem_cons.mp hk with h1 | h2
        · exact absurd h1.symm h
        · exact h2
      simp only [if_neg h, List.length_cons]
      rw [← ih hk']

theorem ainsert_of_not_mem {α : Type} :
    ∀ {m : List (Nat × α)} {k : Nat} {v : α}, k ∉ akeys m → ainsert m k v = m ++ [(k, v)] := by
  intro m k v
  induction m with
  | nil => simp [ainsert]
  | cons p rest ih =>
    intro hk
    unfold ainsert
    have h : ¬ p.1 = k := by
      intro hh
      exact hk (by simp [akeys, hh])
    simp only [if_neg h, List.cons_append]
    rw [ih (fun hh => hk (by simp [akeys] at hh ⊢; exact Or.inr hh))]

/-! ### Reconstruction invariant -/

theorem drainFuel_inv (f : Nat → List Nat) (A : Finset Nat) :
    ∀ (fuel : Nat) (s : ReconState), s.chunkMap.length ≤ fuel →
      ReconInvPre f A s → ReconInv f A (drainFuel fuel s) := by
  intro fuel
  induction fuel with
  | zero =>
    intro s hlen hpre
    obtain ⟨h1, h2, h3, h4, h5, h6⟩ := hpre
    have hm : s.chunkMap = [] := List.length_eq_zero.mp (by omega)
    unfold drainFuel
    refine ⟨h1, h2, ?_, h3, h4, ?_, ?_⟩
    · intro hA
      have := h6 _ hA (le_refl _)
      rw [hm] at this
      simp [akeys] at this
    · intro p hp
      rw [hm] at hp
      simp at hp
    · intro a ha hlt
      have := h6 _ ha (le_of_lt hlt)
      rw [hm] at this
      simp [akeys] at this
  | succ fuel ih =>
    intro s hlen hpre
    obtain ⟨h1, h2, h3, h4, h5, h6⟩ := hpre
    unfold drainFuel
    rcases ho : alookup s.chunkMap s.next with _ | b
    · have hnk : s.next ∉ akeys s.chunkMap := alookup_eq_none.mp ho
      refine ⟨h1, h2, ?_, h3, h4, ?_, ?_⟩
      · intro hA
        exact hnk (h6 _ hA (le_refl _))
      · intro p hp
        obtain ⟨hp1, hp2, hp3⟩ := h5 p hp
        refine ⟨hp1, hp2, ?_⟩
        rcases Nat.lt_or_ge s.next p.1 with h | h
        · exact h
        · exfalso
          apply hnk
          have : p.1 = s.next := le_antisymm h hp3
          rw [← this]
          exact List.mem_map_of_mem Prod.fst hp
      · intro a ha hlt
        exact h6 _ ha (le_of_lt hlt)
    · have hmem : (s.next, b) ∈ s.chunkMap := mem_of_alookup ho
      have hkey : s.next ∈ akeys s.chunkMap := List.mem_map_of_mem Prod.fst hmem
      obtain ⟨hb, hnA, _⟩ := h5 _ hmem
      apply ih
      · have := length_aremove (m := s.chunkMap) (k := s.next) hkey
        show (aremove s.chunkMap s.next).length ≤ fuel
        omega
      · refine ⟨by show 1 ≤ s.next + 1; omega, ?_, ?_, ?_, ?_, ?_⟩
        · intro j hj1 hj2
          have hj2' : j < s.next + 1 := hj2
          rcases Nat.lt_or_ge j s.next with h | h
          · exact h2 j hj1 h
          · have hj : j = s.next := by omega
            rw [hj]
            exact hnA
        · show s.emitted ++ [b] = (List.range' 1 (s.next + 1 - 1)).map f
          have hb' : b = f s.next := hb
          rw [h3, hb']
          have he : s.next + 1 - 1 = (s.next - 1) + 1 := by omega
          rw [he, List.range'_concat, List.map_append]
          have h1n : 1 + (s.next - 1) = s.next := by omega
          simp [h1n]
        · exact nodup_akeys_aremove h4
        · intro p hp
          have hpm : p ∈ s.chunkMap := mem_of_mem_aremove hp
          obtain ⟨hp1, hp2, hp3⟩ := h5 p hpm
          refine ⟨hp1, hp2, ?_⟩
          have hne : p.1 ≠ s.next := by
            intro hh
            have hkm : p.1 ∈ akeys (aremove s.chunkMap s.next) :=
              List.mem_map_of_mem Prod.fst hp
            rw [hh] at hkm
            exact not_mem_akeys_aremove h4 hkm
          show s.next + 1 ≤ p.1
          omega
        · intro a ha hge
          have hge' : s.next + 1 ≤ a := hge
          have h1a : a ∈ akeys s.chunkMap := h6 _ ha (by omega)
          exact mem_akeys_aremove h1a (by omega)

theorem arrive_inv (f : Nat → List Nat) (A : Finset Nat) (s : ReconState) (i : Nat)
    (hInv : ReconInv f A s) (hi : 1 ≤ i) (hA : i ∉ A) :
    ReconInv f (insert i A) (arrive s i (f i)) := by
  obtain ⟨h1, h2, h3, h4, h5, h6, h7⟩ := hInv
  have hik : i ∉ akeys s.chunkMap := by
    intro hk
    obtain ⟨v, hv⟩ := alookup_of_mem_keys hk
    exact hA (h6 _ (mem_of_alookup hv)).2.1
  have hins : ainsert s.chunkMap i (f i) = s.chunkMap ++ [(i, f i)] :=
    ainsert_of_not_mem hik
  have hkeys : akeys (ainsert s.chunkMap i (f i)) = akeys s.chunkMap ++ [i] := by
    rw [hins]
    simp [akeys]
  have hnexti : s.next ≤ i := by
    rcases Nat.lt_or_ge i s.next with h | h
    · exact absurd (h2 i hi h) hA
    · exact h
  unfold arrive
  apply drainFuel_inv
  · exact Nat.le_refl _
  · refine ⟨h1, ?_, ?_, ?_, ?_, ?_⟩
    · intro j hj1 hj2
      have hj2' : j < s.next := hj2
      exact Finset.mem_insert_of_mem (h2 j hj1 hj2')
    · exact h4
    · show (akeys (ainsert s.chunkMap i (f i))).Nodup
      rw [hkeys, List.nodup_append]
      refine ⟨h5, List.nodup_singleton i, ?_⟩
      intro x hx hx'
      simp at hx'
      rw [hx'] at hx
      exact hik hx
    · intro p hp
      show p.2 = f p.1 ∧ p.1 ∈ insert i A ∧ s.next ≤ p.1
      have hp' : p ∈ ainsert s.chunkMap i (f i) := hp
      rw [hins] at hp'
      rcases List.mem_append.mp hp' with hpm | hpn
      · obtain ⟨hp1, hp2, hp3⟩ := h6 p hpm
        exact ⟨hp1, Finset.mem_insert_of_mem hp2, le_of_lt hp3⟩
      · simp at hpn
        rw [hpn]
        exact ⟨rfl, Finset.mem_insert_self _ _, hnexti⟩
    · intro a ha hge
      have hge' : s.next ≤ a := hge
      show a ∈ akeys (ainsert s.chunkMap i (f i))
      rw [hkeys, List.mem_append]
      rcases Finset.mem_insert.mp ha with h | h
      · right
        simp [h]
      · left
        have hne : a ≠ s.next := by
          intro hh
          rw [hh] at h
          exact h3 h
        exact h7 a h (by omega)

theorem foldl_arrive_inv (f : Nat → List Nat) :
    ∀ (order : List Nat) (A : Finset Nat) (s : ReconState),
      ReconInv f A s →
      (∀ i ∈ order, 1 ≤ i) → (∀ i ∈ order, i ∉ A) → order.Nodup →
      ReconInv f (A ∪ order.toFinset) (order.foldl (fun s i => arrive s i (f i)) s) := by
  intro order
  induction order with
  | nil =>
    intro A s h _ _ _
    simpa using h
  | cons j rest ih =>
    intro A s hInv helem hnotin hnd
    simp only [List.foldl_cons]
    have hstep := arrive_inv f A s j hInv (helem j (by simp)) (hnotin j (by simp))
    have hnd' := List.nodup_cons.mp hnd
    have hrest := ih (insert j A) _ hstep
      (fun i hi => helem i (List.mem_cons_of_mem _ hi))
      (fun i hi => by
        rw [Finset.mem_insert]
        push_neg
        refine ⟨?_, hnotin i (List.mem_cons_of_mem _ hi)⟩
        intro hh
        rw [hh] at hi
        exact hnd'.1 hi)
      hnd'.2
    have hset : insert j A ∪ rest.toFinset = A ∪ (j :: rest).toFinset := by
      ext x
      simp only [Finset.mem_union, Finset.mem_insert, List.toFinset_cons]
      tauto
    rw [← hset]
    exact hrest

theorem initRecon_inv (f : Nat → List Nat) : ReconInv f ∅ initRecon := by
  refine ⟨le_refl 1, ?_, ?_, ?_, ?_, ?_, ?_⟩
  · intro i hi1 hi2
    have h : i < 1 := hi2
    omega
  · simp
  · simp [initRecon]
  · simp [initRecon, akeys]
  · intro p hp
    simp [initRecon] at hp
  · intro a ha
    simp at ha

theorem runRecon_inv (f : Nat → List Nat) (order : List Nat)
    (helem : ∀ i ∈ order, 1 ≤ i) (hnd : order.Nodup) :
    ReconInv f order.toFinset (runRecon f order) := by
  have h := foldl_arrive_inv f order ∅ initRecon (initRecon_inv f) helem
    (fun i _ => Finset.not_mem_empty i) hnd
  simpa [runRecon] using h

/-- When every fragment `1..n` has completed (in any order), the stream has
emitted exactly `f 1, …, f n` in index order and the holding map is empty. -/
theorem recon_complete (f : Nat → List Nat) (n : Nat) (order : List Nat)
    (hperm : order.Perm (List.range' 1 n)) :
    (runRecon f order).emitted = (List.range' 1 n).map f ∧
    (runRecon f order).chunkMap = [] := by
  have helem : ∀ i ∈ order, 1 ≤ i := by
    intro i hi
    have := hperm.mem_iff.mp hi
    rw [List.mem_range'_1] at this
    omega
  have hnd : order.Nodup := hperm.nodup_iff.mpr (List.nodup_range' _ _)
  have hinv := runRecon_inv f order helem hnd
  have hset : order.toFinset = (List.range' 1 n).toFinset :=
    List.toFinset_eq_of_perm _ _ hperm
  rw [hset] at hinv
  obtain ⟨h1, h2, h3, h4, h5, h6, h7⟩ := hinv
  have hmemA : ∀ a : Nat, a ∈ (List.range' 1 n).toFinset ↔ 1 ≤ a ∧ a < 1 + n := by
    intro a
    rw [List.mem_toFinset, List.mem_range'_1]
  have hnext : (runRecon f order).next = n + 1 := by
    rcases Nat.lt_or_ge (runRecon f order).next (n + 1) with hlt | hge
    · exfalso
      apply h3
      rw [hmemA]
      omega
    · rcases Nat.eq_or_lt_of_le hge with he | hlt
      · exact he.symm
      · exfalso
        have := h2 (n + 1) (by omega) hlt
        rw [hmemA] at this
        omega
  constructor
  · rw [h4, hnext]
    simp
  · rw [List.eq_nil_iff_forall_not_mem]
    intro p hp
    obtain ⟨_, hp2, hp3⟩ := h6 p hp
    rw [hmemA] at hp2
    omega

theorem map_range'_getD (l : List (List Nat)) (n : Nat) (hn : l.length = n) :
    (List.range' 1 n).map (fun i => l.getD (i - 1) []) = l := by
  apply List.ext_getElem
  · simp [hn]
  · intro i h1 h2
    have hilt : i < n := by simpa [hn] using h2
    have hr : i < (List.range' 1 n).length := by simpa using hilt
    rw [List.getElem_map, List.getElem_range']
    simp only [Nat.one_mul]
    have : 1 + i - 1 = i := by omega
    rw [this, List.getD_eq_getElem _ _ (by omega)]

/-! ### Claim C1 -/

/-- C1: for every reconstruction via `fetch(assetPath)`, whatever order the
fragment fetches complete in (any permutation of `1..totalChunks`), the
output stream emits the chunks in index order `1..totalChunks` (the emitted
sequence equals the ordered chunk list) and their concatenation is
byte-identical to the original uploaded buffer. -/
theorem fetch_reconstructs_buffer (buffer order : List Nat)
    (hperm : order.Perm (List.range' 1 (totalChunksOf buffer.length))) :
    (runRecon (chunkBytes buffer) order).emitted = uploadChunks buffer ∧
    (runRecon (chunkBytes buffer) order).emitted.flatten = buffer := by
  obtain ⟨he, _⟩ :=
    recon_complete (chunkBytes buffer) (totalChunksOf buffer.length) order hperm
  have hmap : (List.range' 1 (totalChunksOf buffer.length)).map (chunkBytes buffer)
      = uploadChunks buffer :=
    map_range'_getD _ _ (uploadChunks_length buffer)
  rw [he, hmap]
  exact ⟨rfl, uploadChunks_flatten buffer⟩

/-- Witness for C1 at a concrete buffer and completion order. -/
theorem fetch_reconstructs_buffer_witness :
    ([1] : List Nat).Perm (List.range' 1 (totalChunksOf ([7, 8, 9] : List Nat).length)) ∧
    (runRecon (chunkBytes [7, 8, 9]) [1]).emitted.flatten = [7, 8, 9] :=
  ⟨by decide, (fetch_reconstructs_buffer [7, 8, 9] [1] (by decide)).2⟩

/-! ### Claim C3 -/

theorem foldE_error (mm : MirrorModel) (σ : List Nat) (s : ReconState) :
    σ.foldl (stepE mm) (Except.error s) = Except.error s := by
  induction σ with
  | nil => rfl
  | cons j rest ih => simpa [List.foldl_cons, stepE] using ih

theorem runReconE_inv (mm : MirrorModel) (i : Nat) (hfail : mirrorGet mm i = .error ()) :
    ∀ (σ : List Nat) (A : Finset Nat) (s : ReconState),
      ReconInv (deliveredBytes mm) A s → i ∉ A →
      (∀ j ∈ σ, 1 ≤ j) → σ.Nodup → (∀ j ∈ σ, j ∉ A) →
      ∃ A', i ∉ A' ∧
        ReconInv (deliveredBytes mm) A' (runState (σ.foldl (stepE mm) (.ok s))) ∧
        (i ∈ σ → exOk (σ.foldl (stepE mm) (.ok s)) = false) := by
  intro σ
  induction σ with
  | nil =>
    intro A s hInv hiA helem hnd hnotin
    exact ⟨A, hiA, hInv, by simp⟩
  | cons j rest ih =>
    intro A s hInv hiA helem hnd hnotin
    simp only [List.foldl_cons]
    rcases hg : mirrorGet mm j with u | b
    · have hstep : stepE mm (.ok s) j = .error s := by
        simp [stepE, hg]
      rw [hstep, foldE_error]
      exact ⟨A, hiA, hInv, fun _ => rfl⟩
    · have hjne : j ≠ i := by
        intro hh
        rw [hh, hfail] at hg
        simp at hg
      have hb : b = deliveredBytes mm j := by
        simp [deliveredBytes, hg]
      have hstep : stepE mm (.ok s) j = .ok (arrive s j (deliveredBytes mm j)) := by
        simp [stepE, hg, hb]
      rw [hstep]
      have harr := arrive_inv (deliveredBytes mm) A s j hInv
        (helem j (List.mem_cons_self _ _)) (hnotin j (List.mem_cons_self _ _))
      have hnd' := List.nodup_cons.mp hnd
      obtain ⟨A', hiA', hInv', hok⟩ :=
        ih (insert j A) (arrive s j (deliveredBytes mm j)) harr
          (by
            rw [Finset.mem_insert]
            push_neg
            exact ⟨fun hh => hjne hh.symm, hiA⟩)
          (fun x hx => helem x (List.mem_cons_of_mem _ hx))
          hnd'.2
          (fun x hx => by
            rw [Finset.mem_insert]
            push_neg
            refine ⟨?_, hnotin x (List.mem_cons_of_mem _ hx)⟩
            intro hh
            rw [hh] at hx
            exact hnd'.1 hx)
      refine ⟨A', hiA', hInv', ?_⟩
      intro hiσ
      rcases List.mem_cons.mp hiσ with h | h
      · exact absurd h.symm hjne
      · exact hok h

/-- C3 (amended): if a fragment's public-CDN fetch fails and its
authenticated fallback fetch *rejects* (transport failure), the stream
aborts: the run ends in an error, what was emitted is exactly the chunks
below `next` in index order, and `next` never passed the failing fragment —
so no bytes of or after that fragment are ever emitted.  (A non-ok fallback
*response* is not detected; see the counterexample.) -/
theorem fetch_aborts_on_fallback_reject (mm : MirrorModel) (σ : List Nat) (i : Nat)
    (helem : ∀ j ∈ σ, 1 ≤ j) (hnd : σ.Nodup) (hiσ : i ∈ σ)
    (hfail : mirrorGet mm i = .error ()) :
    exOk (runReconE mm σ) = false ∧
    (runState (runReconE mm σ)).emitted =
      (List.range' 1 ((runState (runReconE mm σ)).next - 1)).map (deliveredBytes mm) ∧
    (runState (runReconE mm σ)).next ≤ i := by
  obtain ⟨A', hiA', hInv', hok⟩ :=
    runReconE_inv mm i hfail σ ∅ initRecon (initRecon_inv _)
      (Finset.not_mem_empty i) helem hnd (fun j _ => Finset.not_mem_empty j)
  obtain ⟨g1, g2, g3, g4, g5, g6, g7⟩ := hInv'
  refine ⟨hok hiσ, g4, ?_⟩
  by_contra hlt
  push_neg at hlt
  exact hiA' (g2 i (helem i hiσ) hlt)

/-- Witness for the amended C3 at a concrete mirror pair and schedule. -/
theorem fetch_aborts_on_fallback_reject_witness :
    ((∀ j ∈ ([1] : List Nat), 1 ≤ j) ∧ ([1] : List Nat).Nodup ∧ (1 : Nat) ∈ [1] ∧
      mirrorGet mmNetErr 1 = .error ()) ∧
    exOk (runReconE mmNetErr [1]) = false :=
  ⟨⟨by decide, by decide, by decide, rfl⟩,
    (fetch_aborts_on_fallback_reject mmNetErr [1] 1 (by decide) (by decide)
      (by decide) rfl).1⟩

/-- C3 counterexample: with `totalChunks = 1`, fragment 1's fetch fails
permanently on both mirrors (the CDN fetch rejects, the fallback responds
non-ok with body `"404"`), yet the stream does *not* abort — it completes
normally and the error-response body is delivered as asset data. -/
theorem fetch_delivers_error_body :
    mmFallbackBody.primary 1 = .netErr ∧
    mmFallbackBody.secondary 1 = .httpErr [52, 48, 52] ∧
    exOk (runReconE mmFallbackBody [1]) = true ∧
    (runState (runReconE mmFallbackBody [1])).emitted = [[52, 48, 52]] := by
  decide

/-! ### Claim C5 -/

theorem validScheduleAux_spec (n : Nat) :
    ∀ (σ : List Nat) (k : Nat) (seen : List Nat),
      validScheduleAux n σ k seen = true →
      (∀ i ∈ σ, 1 ≤ i ∧ i ≤ n ∧ i ∉ seen) ∧ σ.Nodup := by
  intro σ
  induction σ with
  | nil =>
    intro k seen _
    exact ⟨by simp, List.nodup_nil⟩
  | cons i rest ih =>
    intro k seen h
    simp only [validScheduleAux, Bool.and_eq_true, decide_eq_true_eq] at h
    obtain ⟨⟨⟨h1, h2⟩, h3⟩, h4⟩ := h
    obtain ⟨hrest, hnd⟩ := ih (k + 1) (i :: seen) h4
    constructor
    · intro j hj
      rcases List.mem_cons.mp hj with hh | hh
      · rw [hh]
        exact ⟨h1, le_trans h2 (min_le_left _ _), h3⟩
      · obtain ⟨a1, a2, a3⟩ := hrest j hh
        exact ⟨a1, a2, fun hs => a3 (List.mem_cons_of_mem _ hs)⟩
    · rw [List.nodup_cons]
      refine ⟨?_, hnd⟩
      intro hi
      exact (hrest i hi).2.2 (List.mem_cons_self _ _)

theorem validSchedule_spec (n : Nat) (σ : List Nat) (h : validSchedule n σ = true) :
    (∀ i ∈ σ, 1 ≤ i ∧ i ≤ n) ∧ σ.Nodup := by
  obtain ⟨he, hnd⟩ := validScheduleAux_spec n σ 0 [] h
  exact ⟨fun i hi => ⟨(he i hi).1, (he i hi).2.1⟩, hnd⟩

theorem reconInv_chunkMap_le (f : Nat → List Nat) (A : Finset Nat) (s : ReconState)
    (n : Nat) (hInv : ReconInv f A s) (hA : ∀ a ∈ A, a ≤ n) :
    s.chunkMap.length ≤ n - 1 := by
  obtain ⟨h1, h2, h3, h4, h5, h6, h7⟩ := hInv
  have hkeys : ∀ x ∈ akeys s.chunkMap, s.next < x ∧ x ≤ n := by
    intro x hx
    obtain ⟨p, hp, hpx⟩ := List.mem_map.mp hx
    obtain ⟨_, hp2, hp3⟩ := h6 p hp
    rw [← hpx]
    exact ⟨hp3, hA _ hp2⟩
  have hlen : s.chunkMap.length = (akeys s.chunkMap).length := by simp [akeys]
  rw [hlen]
  have hsub : (akeys s.chunkMap).toFinset ⊆ Finset.Icc (s.next + 1) n := by
    intro x hx
    rw [List.mem_toFinset] at hx
    obtain ⟨ha, hb⟩ := hkeys x hx
    rw [Finset.mem_Icc]
    omega
  have hcard : (akeys s.chunkMap).toFinset.card = (akeys s.chunkMap).length :=
    List.toFinset_card_of_nodup h5
  have hle : (akeys s.chunkMap).toFinset.card ≤ (Finset.Icc (s.next + 1) n).card :=
    Finset.card_le_card hsub
  rw [hcard, Nat.card_Icc] at hle
  omega

/-- C5 (amended): along every prefix of every completion order the dispatch
loop can produce, at most `W` fetches are in flight — but the holding map of
arrived-but-unemitted fragments is bounded only by `totalChunks - 1`
entries, not by `W`. -/
theorem holding_map_and_window_bounds (f : Nat → List Nat) (n : Nat) (σ p q : List Nat)
    (hval : validSchedule n σ = true) (happ : σ = p ++ q) :
    inFlightCount n p.length ≤ W ∧
    (runRecon f p).chunkMap.length ≤ n - 1 := by
  constructor
  · show min n (W + p.length) - p.length ≤ W
    unfold W
    omega
  · obtain ⟨helem, hnd⟩ := validSchedule_spec n σ hval
    have hpelem : ∀ i ∈ p, 1 ≤ i ∧ i ≤ n := fun i hi =>
      helem i (happ ▸ List.mem_append_left _ hi)
    have hpnd : p.Nodup := by
      rw [happ] at hnd
      exact hnd.of_append_left
    have hinv := runRecon_inv f p (fun i hi => (hpelem i hi).1) hpnd
    apply reconInv_chunkMap_le f p.toFinset _ n hinv
    intro a ha
    rw [List.mem_toFinset] at ha
    exact (hpelem a ha).2

/-- Witness for the amended C5 at a concrete schedule. -/
theorem holding_map_and_window_bounds_witness :
    (validSchedule 3 [1, 2, 3] = true ∧ ([1, 2, 3] : List Nat) = [1, 2] ++ [3]) ∧
    (runRecon (fun i => [i]) [1, 2]).chunkMap.length ≤ 3 - 1 :=
  ⟨⟨by decide, by decide⟩,
    (holding_map_and_window_bounds (fun i => [i]) 3 [1, 2, 3] [1, 2] [3]
      (by decide) (by decide)).2⟩

/-- C5 counterexample: a 12-chunk reconstruction whose first fragment
completes last is a schedule the `W = 10` dispatch window allows, and after
its first 11 completions the holding map holds 11 > W entries. -/
theorem holding_map_exceeds_window :
    validSchedule 12 [2, 3, 4, 5, 6, 7, 8, 9, 10, 11, 12, 1] = true ∧
    [2, 3, 4, 5, 6, 7, 8, 9, 10, 11, 12] ++ [1] =
      [2, 3, 4, 5, 6, 7, 8, 9, 10, 11, 12, 1] ∧
    (runRecon (fun i => [i]) [2, 3, 4, 5, 6, 7, 8, 9, 10, 11, 12]).chunkMap.length = 11 ∧
    W < 11 := by
  decide

/-! ### Claim C6 -/

/-- C6 (amended): `upload` splits the buffer into exactly
`totalChunks = ceil(totalSize / 5242880)` chunks, each at most `5242880`
bytes with only the final chunk possibly shorter, covering the buffer
exactly once in order (no gaps or overlaps); the manifest records the chunk
count and total size; and a 12582912-byte buffer yields 3 chunks of sizes
`[5242880, 5242880, 2097152]` (not `1572864` as the spec's scenario claims;
`12582912 - 2 * 5242880 = 2097152`) with manifest `totalSize = 12582912`. -/
theorem upload_chunking_correct (buffer : List Nat) :
    (uploadChunks buffer).length = totalChunksOf buffer.length ∧
    totalChunksOf buffer.length = (buffer.length + CHUNK_SIZE - 1) / CHUNK_SIZE ∧
    (∀ c ∈ uploadChunks buffer, c.length ≤ CHUNK_SIZE) ∧
    (∀ i, i + 1 < totalChunksOf buffer.length →
      ((uploadChunks buffer).getD i []).length = CHUNK_SIZE) ∧
    (uploadChunks buffer).flatten = buffer ∧
    (∀ uid nm mt pp ts,
      (mkManifest uid nm mt pp ts buffer.length).totalSize = buffer.length ∧
      (mkManifest uid nm mt pp ts buffer.length).totalChunks = totalChunksOf buffer.length ∧
      (mkManifest uid nm mt pp ts buffer.length).chunkSize = CHUNK_SIZE) ∧
    (buffer.length = 12582912 →
      totalChunksOf buffer.length = 3 ∧
      (uploadChunks buffer).map List.length = [5242880, 5242880, 2097152] ∧
      (mkManifest "u" "n" "m" "p" "t" buffer.length).totalSize = 12582912) := by
  refine ⟨uploadChunks_length buffer, rfl, ?_, ?_, uploadChunks_flatten buffer, ?_, ?_⟩
  · intro c hc
    rw [uploadChunks_eq_take] at hc
    obtain ⟨i, _, hi⟩ := List.mem_map.mp hc
    rw [← hi, List.length_take]
    exact min_le_left _ _
  · intro i hi
    rw [uploadChunks_eq_take]
    have hlen : i < ((List.range (totalChunksOf buffer.length)).map
        (fun i => (buffer.drop (i * CHUNK_SIZE)).take CHUNK_SIZE)).length := by
      simp
      omega
    rw [List.getD_eq_getElem _ _ hlen, List.getElem_map, List.getElem_range]
    rw [List.length_take, List.length_drop]
    unfold totalChunksOf at hi
    rw [chunkSize_eq] at *
    omega
  · intro uid nm mt pp ts
    exact ⟨rfl, rfl, rfl⟩
  · intro hL
    refine ⟨?_, ?_, ?_⟩
    · rw [hL]
      decide
    · rw [uploadChunks_map_length, hL]
      decide
    · simp [mkManifest, hL]

/-- Witness for the amended C6 at a concrete 12 MiB buffer. -/
theorem upload_chunking_correct_witness :
    (List.replicate 12582912 (0 : Nat)).length = 12582912 ∧
    totalChunksOf (List.replicate 12582912 (0 : Nat)).length = 3 ∧
    (uploadChunks (List.replicate 12582912 (0 : Nat))).map List.length =
      [5242880, 5242880, 2097152] := by
  have hlen : (List.replicate 12582912 (0 : Nat)).length = 12582912 :=
    List.length_replicate _ _
  have h := (upload_chunking_correct (List.replicate 12582912 0)).2.2.2.2.2.2 hlen
  exact ⟨hlen, h.1, h.2.1⟩

/-- C6 counterexample: the chunk sizes of a 12582912-byte buffer are
`[5242880, 5242880, 2097152]`, not the `[5242880, 5242880, 1572864]` the
claim's scenario expects. -/
theorem twelve_mib_chunk_sizes :
    (uploadChunks (List.replicate 12582912 (0 : Nat))).map List.length =
      [5242880, 5242880, 2097152] ∧
    (uploadChunks (List.replicate 12582912 (0 : Nat))).map List.length ≠
      [5242880, 5242880, 1572864] := by
  have hlen : (List.replicate 12582912 (0 : Nat)).length = 12582912 :=
    List.length_replicate _ _
  have h : (uploadChunks (List.replicate 12582912 (0 : Nat))).map List.length =
      [5242880, 5242880, 2097152] := by
    rw [uploadChunks_map_length, hlen]
    decide
  refine ⟨h, ?_⟩
  rw [h]
  decide

/-! ### Store-extension lemmas -/

theorem storePres_refl (s : Store) : StorePres s s :=
  ⟨rfl, le_refl _, fun _ _ => rfl, fun _ _ => rfl, fun _ _ => rfl⟩

theorem storePres_trans {a b c : Store} (h1 : StorePres a b) (h2 : StorePres b c) :
    StorePres a c := by
  obtain ⟨e1, f1, b1, t1, c1⟩ := h1
  obtain ⟨e2, f2, b2, t2, c2⟩ := h2
  exact ⟨e2.trans e1, le_trans f1 f2,
    fun k hk => (b2 k (lt_of_lt_of_le hk f1)).trans (b1 k hk),
    fun k hk => (t2 k (lt_of_lt_of_le hk f1)).trans (t1 k hk),
    fun k hk => (c2 k (lt_of_lt_of_le hk f1)).trans (c1 k hk)⟩

theorem alookup_cons_ne {α : Type} {m : List (Nat × α)} {k j : Nat} {v : α}
    (h : j ≠ k) : alookup ((j, v) :: m) k = alookup m k := by
  simp [alookup, h]

/-- The paths reachable from the head are unchanged by a store extension. -/
theorem pathsOfHead_of_pres {s s' : Store} (hwf : WF s) (hp : StorePres s s') :
    pathsOfHead s' = pathsOfHead s := by
  obtain ⟨hh, hf, hb, ht, hc⟩ := hp
  obtain ⟨hhead, _, _, hcm⟩ := hwf
  unfold pathsOfHead treeOfCommit
  rw [hh, hc s.head hhead]
  rcases hcl : alookup s.commits s.head with _ | c
  · simp only [hcl]
  · simp only [hcl]
    have hmem := mem_of_alookup hcl
    have htid : c.treeId < s.fresh := (hcm _ hmem).2
    rw [ht c.treeId htid]

/-! ### Monad lemmas -/

theorem presM_gpure {α : Type} (a : α) : PresM (gpure a) := fun s => storePres_refl s.store

theorem presM_gthrow {α : Type} (e : GitErr) : PresM (gthrow (α := α) e) :=
  fun s => storePres_refl s.store

theorem presM_emitLog (log : CDNLog) : PresM (emitLog log) :=
  fun s => storePres_refl s.store

theorem presM_gbind {α β : Type} {m : GitM α} {f : α → GitM β}
    (hm : PresM m) (hf : ∀ a, PresM (f a)) : PresM (gbind m f) := by
  intro s
  have h1 := hm s
  show StorePres s.store ((gbind m f s).2).store
  unfold gbind
  rcases hms : m s with ⟨r, s'⟩
  rw [hms] at h1
  cases r with
  | error e => exact h1
  | ok a => exact storePres_trans h1 (hf a s')

theorem request_noEnv_eq {α : Type} (o : Nat → Bool)
    (eff : Store → Except GitErr (α × Store)) (s : GitSt) :
    request o noEnv eff s =
      if o s.ctr then (.error .apiError, { s with ctr := s.ctr + 1 })
      else
        match eff s.store with
        | .error e => (.error e, { s with ctr := s.ctr + 1 })
        | .ok (a, st') => (.ok a, { s with store := st', ctr := s.ctr + 1 }) := rfl

theorem presM_request {α : Type} (oracle : Nat → Bool)
    (eff : Store → Except GitErr (α × Store))
    (heff : ∀ st a st', eff st = .ok (a, st') → StorePres st st') :
    PresM (request oracle noEnv eff) := by
  intro s
  show StorePres s.store ((request oracle noEnv eff s).2).store
  rw [request_noEnv_eq]
  by_cases h : oracle s.ctr
  · simp only [h, if_true]
    exact storePres_refl _
  · simp only [h, if_false]
    rcases he : eff s.store with e | ⟨a, st'⟩
    · exact storePres_refl _
    · exact heff _ _ _ he

theorem storePres_createBlob (b : Blob) (st : Store) :
    StorePres st { st with blobs := (st.fresh, b) :: st.blobs, fresh := st.fresh + 1 } := by
  refine ⟨rfl, Nat.le_succ _, ?_, fun _ _ => rfl, fun _ _ => rfl⟩
  intro k hk
  exact alookup_cons_ne (by omega)

theorem storePres_createTree (entries : List TreeEntry) (st : Store) :
    StorePres st { st with trees := (st.fresh, entries) :: st.trees, fresh := st.fresh + 1 } := by
  refine ⟨rfl, Nat.le_succ _, fun _ _ => rfl, ?_, fun _ _ => rfl⟩
  intro k hk
  exact alookup_cons_ne (by omega)

theorem storePres_createCommit (c : CommitObj) (st : Store) :
    StorePres st { st with commits := (st.fresh, c) :: st.commits, fresh := st.fresh + 1 } := by
  refine ⟨rfl, Nat.le_succ _, fun _ _ => rfl, fun _ _ => rfl, ?_⟩
  intro k hk
  exact alookup_cons_ne (by omega)

theorem presM_getRef (o : Nat → Bool) : PresM (request o noEnv getRefEff) := by
  apply presM_request
  intro st a st' h
  unfold getRefEff at h
  injection h with h'
  injection h' with h1 h2
  rw [← h2]
  exact storePres_refl st

theorem presM_createBlob (o : Nat → Bool) (b : Blob) :
    PresM (request o noEnv (createBlobEff b)) := by
  apply presM_request
  intro st a st' h
  unfold createBlobEff at h
  injection h with h'
  injection h' with h1 h2
  rw [← h2]
  exact storePres_createBlob b st

theorem presM_getBlob (o : Nat → Bool) (sha : Nat) :
    PresM (request o noEnv (getBlobEff sha)) := by
  apply presM_request
  intro st a st' h
  unfold getBlobEff at h
  rcases hl : alookup st.blobs sha with _ | b
  · rw [hl] at h
    cases h
  · rw [hl] at h
    injection h with h'
    injection h' with h1 h2
    rw [← h2]
    exact storePres_refl st

theorem presM_getTree (o : Nat → Bool) (sha : Nat) :
    PresM (request o noEnv (getTreeEff sha)) := by
  apply presM_request
  intro st a st' h
  unfold getTreeEff at h
  rcases h1 : alookup st.commits sha with _ | c
  · simp only [h1] at h
    cases h
  · simp only [h1] at h
    rcases h2 : alookup st.trees c.treeId with _ | entries
    · simp only [h2] at h
      cases h
    · simp only [h2] at h
      injection h with h'
      injection h' with h3 h4
      rw [← h4]
      exact storePres_refl st

theorem presM_createTree (o : Nat → Bool) (entries : List TreeEntry) :
    PresM (request o noEnv (createTreeEff entries)) := by
  apply presM_request
  intro st a st' h
  unfold createTreeEff at h
  injection h with h'
  injection h' with h1 h2
  rw [← h2]
  exact storePres_createTree entries st

theorem presM_createTreeBase (o : Nat → Bool) (base : Nat) (items : List TreeEntry) :
    PresM (request o noEnv (createTreeBaseEff base items)) := by
  apply presM_request
  intro st a st' h
  unfold createTreeBaseEff at h
  rcases h1 : alookup st.commits base with _ | c
  · simp only [h1] at h
    cases h
  · simp only [h1] at h
    rcases h2 : alookup st.trees c.treeId with _ | bb
    · simp only [h2] at h
      cases h
    · simp only [h2] at h
      injection h with h'
      injection h' with h3 h4
      rw [← h4]
      exact storePres_createTree _ st

theorem presM_createCommit (o : Nat → Bool) (msg : String) (treeId : Nat)
    (parents : List Nat) :
    PresM (request o noEnv (createCommitEff msg treeId parents)) := by
  apply presM_request
  intro st a st' h
  unfold createCommitEff at h
  injection h with h'
  injection h' with h1 h2
  rw [← h2]
  exact storePres_createCommit _ st

theorem presM_getRegistryContents (o : Nat → Bool) :
    PresM (request o noEnv getRegistryContentsEff) := by
  apply presM_request
  intro st a st' h
  unfold getRegistryContentsEff at h
  rcases h1 : alookup st.commits st.head with _ | c
  · simp only [h1] at h
    cases h
  · simp only [h1] at h
    rcases h2 : alookup st.trees c.treeId with _ | entries
    · simp only [h2] at h
      cases h
    · simp only [h2] at h
      rcases h3 : entries.find? (fun e => e.path == "registry.json") with _ | e
      · simp only [h3] at h
        cases h
      · simp only [h3] at h
        rcases h4 : alookup st.blobs e.sha with _ | b
        · simp only [h4] at h
          cases h
        · simp only [h4] at h
          cases b with
          | registryDoc assets =>
            injection h with h'
            injection h' with h5 h6
            rw [← h6]
            exact storePres_refl st
          | raw bytes => cases h
          | manifestDoc m => cases h

theorem presM_listM (cfg : CDNConfig) (o : Nat → Bool) : PresM (listM cfg o noEnv) := by
  intro s
  show StorePres s.store ((listM cfg o noEnv s).2).store
  unfold listM
  have h := presM_getRegistryContents o s
  rcases hr : request o noEnv getRegistryContentsEff s with ⟨r, s'⟩
  rw [hr] at h
  cases r with
  | error e => exact h
  | ok assets => exact h

theorem presIfErr_of_presM {α : Type} {m : GitM α} (h : PresM m) : PresIfErr m :=
  fun s _ => h s

theorem presIfErr_gbind {α β : Type} {m : GitM α} {f : α → GitM β}
    (hm : PresM m) (hf : ∀ a, PresIfErr (f a)) : PresIfErr (gbind m f) := by
  intro s herr
  have h1 := hm s
  show StorePres s.store ((gbind m f s).2).store
  unfold gbind at herr ⊢
  rcases hms : m s with ⟨r, s'⟩
  rw [hms] at h1 herr
  cases r with
  | error e => exact h1
  | ok a => exact storePres_trans h1 (hf a s' herr)

theorem presIfErr_gbind_neverErr {α β : Type} {m : GitM α} {f : α → GitM β}
    (hm : PresIfErr m) (hf : ∀ a, NeverErr (f a)) : PresIfErr (gbind m f) := by
  intro s herr
  have h1 := hm s
  show StorePres s.store ((gbind m f s).2).store
  unfold gbind at herr ⊢
  rcases hms : m s with ⟨r, s'⟩
  rw [hms] at h1 herr
  cases r with
  | error e => exact h1 rfl
  | ok a =>
    exfalso
    have := hf a s'
    rw [herr] at this
    cases this

theorem presIfErr_patchRef (o : Nat → Bool) (c : Nat) :
    PresIfErr (request o noEnv (patchRefEff c)) := by
  intro s herr
  show StorePres s.store ((request o noEnv (patchRefEff c) s).2).store
  rw [request_noEnv_eq] at herr ⊢
  by_cases h : o s.ctr
  · rw [if_pos h]
    exact storePres_refl _
  · rw [if_neg h] at herr ⊢
    unfold patchRefEff at herr ⊢
    rcases h1 : alookup s.store.commits c with _ | cm
    · simp only [h1]
      exact storePres_refl _
    · simp only [h1] at herr ⊢
      by_cases h2 : s.store.head ∈ cm.parents
      · rw [if_pos h2] at herr
        simp [exOk] at herr
      · rw [if_neg h2]
        exact storePres_refl _

theorem neverErr_gpure {α : Type} (a : α) : NeverErr (gpure a) := fun _ => rfl

theorem neverErr_emitLog (log : CDNLog) : NeverErr (emitLog log) := fun _ => rfl

theorem neverErr_gbind {α β : Type} {m : GitM α} {f : α → GitM β}
    (hm : NeverErr m) (hf : ∀ a, NeverErr (f a)) : NeverErr (gbind m f) := by
  intro s
  have h1 := hm s
  show exOk ((gbind m f s).1) = true
  unfold gbind
  rcases hms : m s with ⟨r, s'⟩
  rw [hms] at h1
  cases r with
  | error e => cases h1
  | ok a => exact hf a s'

/-! ### Claim C9 -/

theorem getRegContents_of_none {st : Store} (h : registryOfHead st = none) :
    getRegistryContentsEff st = .error .apiError := by
  unfold registryOfHead treeOfCommit at h
  unfold getRegistryContentsEff
  rcases h1 : alookup st.commits st.head with _ | c
  · simp only [h1]
  · simp only [h1] at h ⊢
    rcases h2 : alookup st.trees c.treeId with _ | entries
    · simp only [h2]
    · simp only [h2] at h ⊢
      rcases h3 : entries.find? (fun e => e.path == "registry.json") with _ | e
      · simp only [h3]
      · simp only [h3] at h ⊢
        rcases h4 : alookup st.blobs e.sha with _ | b
        · simp only [h4]
        · simp only [h4] at h ⊢
          cases b with
          | raw bytes => rfl
          | registryDoc assets => cases h
          | manifestDoc m => rfl

theorem getRegContents_of_some {st : Store} {assets : List CDNAsset}
    (h : registryOfHead st = some assets) :
    getRegistryContentsEff st = .ok (assets, st) := by
  unfold registryOfHead treeOfCommit at h
  unfold getRegistryContentsEff
  rcases h1 : alookup st.commits st.head with _ | c
  · simp only [h1] at h
    cases h
  · simp only [h1] at h ⊢
    rcases h2 : alookup st.trees c.treeId with _ | entries
    · simp only [h2] at h
      cases h
    · simp only [h2] at h ⊢
      rcases h3 : entries.find? (fun e => e.path == "registry.json") with _ | e
      · simp only [h3] at h
        cases h
      · simp only [h3] at h ⊢
        rcases h4 : alookup st.blobs e.sha with _ | b
        · simp only [h4] at h
          cases h
        · simp only [h4] at h ⊢
          cases b with
          | raw bytes => cases h
          | registryDoc a2 =>
            injection h with h'
            rw [h']
          | manifestDoc m => cases h

/-- C9: `list()` returns the empty sequence on every failure mode of reading
the registry (a thrown request, or a missing/undecodable registry document)
instead of propagating the error, and on success it returns the decoded
ordered sequence of assets (with links injected where missing — which
preserves identity, order and length). -/
theorem list_never_throws (cfg : CDNConfig) (oracle : Nat → Bool) (s₀ : GitSt) :
    exOk ((listM cfg oracle noEnv s₀).1) = true ∧
    (exOk ((request oracle noEnv getRegistryContentsEff s₀).1) = false →
      (listM cfg oracle noEnv s₀).1 = .ok []) ∧
    (registryOfHead s₀.store = none → (listM cfg oracle noEnv s₀).1 = .ok []) ∧
    (∀ assets, registryOfHead s₀.store = some assets → oracle s₀.ctr = false →
      (listM cfg oracle noEnv s₀).1 = .ok (assets.map (injectLinks cfg))) ∧
    (∀ assets : List CDNAsset,
      (assets.map (injectLinks cfg)).map CDNAsset.id = assets.map CDNAsset.id ∧
      (assets.map (injectLinks cfg)).length = assets.length) := by
  refine ⟨?_, ?_, ?_, ?_, ?_⟩
  · unfold listM
    rcases hr : request oracle noEnv getRegistryContentsEff s₀ with ⟨r, s'⟩
    cases r with
    | error e => rfl
    | ok assets => rfl
  · intro herr
    unfold listM
    rcases hr : request oracle noEnv getRegistryContentsEff s₀ with ⟨r, s'⟩
    rw [hr] at herr
    cases r with
    | error e => rfl
    | ok assets => cases herr
  · intro hnone
    unfold listM
    rcases hr : request oracle noEnv getRegistryContentsEff s₀ with ⟨r, s'⟩
    cases r with
    | error e => rfl
    | ok assets =>
      exfalso
      rw [request_noEnv_eq] at hr
      by_cases ho : oracle s₀.ctr
      · rw [if_pos ho] at hr
        exact Except.noConfusion (congrArg Prod.fst hr)
      · rw [if_neg ho, getRegContents_of_none hnone] at hr
        exact Except.noConfusion (congrArg Prod.fst hr)
  · intro assets hsome ho
    unfold listM
    rw [request_noEnv_eq, if_neg (by rw [ho]; exact Bool.false_ne_true),
      getRegContents_of_some hsome]
  · intro assets
    constructor
    · rw [List.map_map]
      apply List.map_congr_left
      intro a _
      rfl
    · simp

/-- Witness for C9 at the sample store. -/
theorem list_never_throws_witness :
    (registryOfHead sampleStore = some [sampleAsset] ∧ neverFail sampleSt.ctr = false) ∧
    (listM sampleCfg neverFail noEnv sampleSt).1 =
      .ok ([sampleAsset].map (injectLinks sampleCfg)) :=
  ⟨⟨by decide, rfl⟩,
   (list_never_throws sampleCfg neverFail sampleSt).2.2.2.1 [sampleAsset] (by decide) rfl⟩

/-! ### Claim C10 -/

theorem request_logs {α : Type} (o : Nat → Bool) (e : Nat → Option Nat)
    (eff : Store → Except GitErr (α × Store)) (s : GitSt) :
    ((request o e eff s).2).logs = s.logs := by
  unfold request
  simp only []
  by_cases h : o s.ctr
  · rw [if_pos h]
  · rw [if_neg h]
    rcases eff (applyEnv e s.ctr s.store) with err | ⟨a, st'⟩
    · rfl
    · rfl

theorem logsGood_gpure {α : Type} (size : Nat) (a : α) : LogsGood size (gpure a) :=
  fun s => ⟨[], by simp [gpure], by simp⟩

theorem logsGood_gthrow {α : Type} (size : Nat) (e : GitErr) :
    LogsGood size (gthrow (α := α) e) :=
  fun s => ⟨[], by simp [gthrow], by simp⟩

theorem logsGood_request {α : Type} (size : Nat) (o : Nat → Bool) (e : Nat → Option Nat)
    (eff : Store → Except GitErr (α × Store)) : LogsGood size (request o e eff) :=
  fun s => ⟨[], by rw [request_logs, List.append_nil], by simp⟩

theorem logsGood_emit (size : Nat) (log : CDNLog) (hgood : progressGood size log) :
    LogsGood size (emitLog log) := by
  intro s
  refine ⟨[log], by simp [emitLog], ?_⟩
  intro l hl
  rw [List.mem_singleton] at hl
  rw [hl]
  exact hgood

theorem logsGood_gbind {α β : Type} {size : Nat} {m : GitM α} {f : α → GitM β}
    (hm : LogsGood size m) (hf : ∀ a, LogsGood size (f a)) :
    LogsGood size (gbind m f) := by
  intro s
  obtain ⟨t1, h1, g1⟩ := hm s
  show ∃ t, ((gbind m f s).2).logs = s.logs ++ t ∧ _
  unfold gbind
  rcases hms : m s with ⟨r, s'⟩
  rw [hms] at h1
  cases r with
  | error e => exact ⟨t1, h1, g1⟩
  | ok a =>
    obtain ⟨t2, h2, g2⟩ := hf a s'
    refine ⟨t1 ++ t2, ?_, ?_⟩
    · rw [h2, h1, List.append_assoc]
    · intro l hl
      rcases List.mem_append.mp hl with h | h
      · exact g1 l h
      · exact g2 l h

theorem logsGood_uploadEmit (n size : Nat) (msg lt : String) (c : Option Nat) :
    LogsGood size (uploadEmit n size msg lt c) := by
  unfold uploadEmit
  apply logsGood_emit
  intro p hp
  cases c with
  | none => cases hp
  | some cc =>
    simp only [Option.map_some'] at hp
    injection hp with hp'
    rw [← hp']
    exact ⟨rfl, rfl⟩

theorem logsGood_plainEmit (size : Nat) (msg lt : String) :
    LogsGood size (plainEmit msg lt) := by
  unfold plainEmit
  apply logsGood_emit
  intro p hp
  cases hp

theorem logsGood_listM (size : Nat) (cfg : CDNConfig) (o : Nat → Bool)
    (e : Nat → Option Nat) : LogsGood size (listM cfg o e) := by
  intro s
  refine ⟨[], ?_, by simp⟩
  show ((listM cfg o e s).2).logs = s.logs ++ []
  rw [List.append_nil]
  unfold listM
  rcases hr : request o e getRegistryContentsEff s with ⟨r, s'⟩
  have := request_logs o e getRegistryContentsEff s
  rw [hr] at this
  cases r with
  | error err => exact this
  | ok assets => exact this

theorem logsGood_pushChunks (size : Nat) (o : Nat → Bool) (e : Nat → Option Nat)
    (n : Nat) (path : String) :
    ∀ l : List (Nat × List Nat), LogsGood size (pushChunksM o e n size path l) := by
  intro l
  induction l with
  | nil => exact logsGood_gpure size []
  | cons hd tl ih =>
    obtain ⟨i, chunk⟩ := hd
    unfold pushChunksM
    apply logsGood_gbind (logsGood_uploadEmit _ _ _ _ _)
    intro _
    apply logsGood_gbind (logsGood_request _ _ _ _)
    intro sha
    apply logsGood_gbind ih
    intro items
    exact logsGood_gpure size _

theorem logsGood_uploadM (cfg : CDNConfig) (o : Nat → Bool) (e : Nat → Option Nat)
    (name mimeType : String) (buffer : List Nat) (uniqueId yearMonth nowIso : String) :
    LogsGood buffer.length
      (uploadM cfg o e name mimeType buffer uniqueId yearMonth nowIso) := by
  unfold uploadM
  apply logsGood_gbind (logsGood_uploadEmit _ _ _ _ _)
  intro _
  apply logsGood_gbind (logsGood_request _ _ _ _)
  intro baseSha
  apply logsGood_gbind (logsGood_pushChunks _ _ _ _ _ _)
  intro chunkItems
  apply logsGood_gbind (logsGood_uploadEmit _ _ _ _ _)
  intro _
  apply logsGood_gbind (logsGood_request _ _ _ _)
  intro mSha
  apply logsGood_gbind (logsGood_uploadEmit _ _ _ _ _)
  intro _
  apply logsGood_gbind (logsGood_listM _ _ _ _)
  intro registry
  apply logsGood_gbind (logsGood_request _ _ _ _)
  intro rSha
  apply logsGood_gbind (logsGood_uploadEmit _ _ _ _ _)
  intro _
  apply logsGood_gbind (logsGood_request _ _ _ _)
  intro treeSha
  apply logsGood_gbind (logsGood_request _ _ _ _)
  intro commitSha
  apply logsGood_gbind (logsGood_request _ _ _ _)
  intro _
  apply logsGood_gbind (logsGood_uploadEmit _ _ _ _ _)
  intro _
  apply logsGood_gbind (logsGood_emit _ _ ?good)
  case good =>
    intro p hp
    cases hp
  intro _
  exact logsGood_gpure _ _

/-- C10: in every progress payload `upload` emits, `loaded` is
`currentChunk * 5242880` (and `total` is the byte size), not the bytes
actually transferred; consequently, for a buffer whose size is not a
multiple of the chunk size, the final chunk's payload
(`currentChunk = totalChunks`) reports `loaded` strictly greater than
`total`. -/
theorem upload_progress_loaded (cfg : CDNConfig) (oracle : Nat → Bool)
    (env : Nat → Option Nat) (name mimeType : String) (buffer : List Nat)
    (uniqueId yearMonth nowIso : String) (s₀ : GitSt) :
    (∃ t, ((uploadM cfg oracle env name mimeType buffer uniqueId yearMonth nowIso s₀).2).logs
        = s₀.logs ++ t ∧
      ∀ log ∈ t, ∀ p, log.progress = some p →
        p.loaded = p.currentChunk * CHUNK_SIZE ∧ p.total = buffer.length) ∧
    (buffer.length % CHUNK_SIZE ≠ 0 → ∀ stage,
      (mkUploadProgress (totalChunksOf buffer.length) buffer.length
        (totalChunksOf buffer.length) stage).total
      < (mkUploadProgress (totalChunksOf buffer.length) buffer.length
        (totalChunksOf buffer.length) stage).loaded) := by
  constructor
  · obtain ⟨t, ht, hg⟩ :=
      logsGood_uploadM cfg oracle env name mimeType buffer uniqueId yearMonth nowIso s₀
    exact ⟨t, ht, fun log hl => hg log hl⟩
  · intro hmod stage
    show buffer.length < totalChunksOf buffer.length * CHUNK_SIZE
    unfold totalChunksOf
    rw [chunkSize_eq] at *
    omega

/-- Witness for C10: a 3-byte upload's final-chunk payload reports
`loaded = 5242880 > 3 = total`. -/
theorem upload_progress_loaded_witness :
    (([1, 2, 3] : List Nat).length % CHUNK_SIZE ≠ 0) ∧
    (mkUploadProgress (totalChunksOf ([1, 2, 3] : List Nat).length)
      ([1, 2, 3] : List Nat).length
      (totalChunksOf ([1, 2, 3] : List Nat).length) "Pushing chunk 1/1...").total
    < (mkUploadProgress (totalChunksOf ([1, 2, 3] : List Nat).length)
      ([1, 2, 3] : List Nat).length
      (totalChunksOf ([1, 2, 3] : List Nat).length) "Pushing chunk 1/1...").loaded :=
  ⟨by decide,
   (upload_progress_loaded sampleCfg neverFail noEnv "f" "video/mp4" [1, 2, 3]
      "u1" "2025_02" "t1" sampleSt).2 (by decide) "Pushing chunk 1/1..."⟩

/-! ### Claim C2 -/

theorem gbind_error {α β : Type} {m : GitM α} {f : α → GitM β} {s s' : GitSt} {e : GitErr}
    (h : m s = (.error e, s')) : gbind m f s = (.error e, s') := by
  unfold gbind
  rw [h]

theorem gbind_ok {α β : Type} {m : GitM α} {f : α → GitM β} {s s' : GitSt} {a : α}
    (h : m s = (.ok a, s')) : gbind m f s = f a s' := by
  unfold gbind
  rw [h]

theorem gbind_uploadEmit {β : Type} (n size : Nat) (msg lt : String) (c : Option Nat)
    (f : Unit → GitM β) (st : Store) (ctr : Nat) (lg : List CDNLog) :
    gbind (uploadEmit n size msg lt c) f ⟨st, ctr, lg⟩ =
      f () ⟨st, ctr, lg ++
        [{ type := "log", message := msg, logType := some lt,
           progress := c.map (fun cc => mkUploadProgress n size cc msg),
           asset := none }]⟩ := rfl

theorem gbind_plainEmit {β : Type} (msg lt : String) (f : Unit → GitM β)
    (st : Store) (ctr : Nat) (lg : List CDNLog) :
    gbind (plainEmit msg lt) f ⟨st, ctr, lg⟩ =
      f () ⟨st, ctr, lg ++
        [{ type := "log", message := msg, logType := some lt,
           progress := none, asset := none }]⟩ := rfl

theorem request_oracle_fail {α : Type} (o : Nat → Bool) (e : Nat → Option Nat)
    (eff : Store → Except GitErr (α × Store)) (st : Store) (ctr : Nat) (lg : List CDNLog)
    (h : o ctr = true) :
    request o e eff ⟨st, ctr, lg⟩ =
      (.error .apiError, ⟨applyEnv e ctr st, ctr + 1, lg⟩) := by
  unfold request
  simp only []
  rw [if_pos h]

theorem request_getRef_ok (o : Nat → Bool) (st : Store) (ctr : Nat) (lg : List CDNLog)
    (h : o ctr = false) :
    request o noEnv getRefEff ⟨st, ctr, lg⟩ = (.ok st.head, ⟨st, ctr + 1, lg⟩) := by
  rw [request_noEnv_eq]
  simp only []
  rw [if_neg (by simp [h])]
  rfl

theorem request_createBlob_ok (o : Nat → Bool) (b : Blob) (st : Store) (ctr : Nat)
    (lg : List CDNLog) (h : o ctr = false) :
    request o noEnv (createBlobEff b) ⟨st, ctr, lg⟩ =
      (.ok st.fresh,
       ⟨{ st with blobs := (st.fresh, b) :: st.blobs, fresh := st.fresh + 1 },
        ctr + 1, lg⟩) := by
  rw [request_noEnv_eq]
  simp only []
  rw [if_neg (by simp [h])]
  rfl

theorem listM_noEnv_run (cfg : CDNConfig) (o : Nat → Bool) (st : Store) (ctr : Nat)
    (lg : List CDNLog) :
    ∃ v, listM cfg o noEnv ⟨st, ctr, lg⟩ = (.ok v, ⟨st, ctr + 1, lg⟩) := by
  unfold listM
  rw [request_noEnv_eq]
  simp only []
  by_cases h : o ctr
  · rw [if_pos h]
    exact ⟨[], rfl⟩
  · rw [if_neg h]
    rcases hro : registryOfHead st with _ | assets
    · rw [getRegContents_of_none hro]
      exact ⟨[], rfl⟩
    · rw [getRegContents_of_some hro]
      exact ⟨assets.map (injectLinks cfg), rfl⟩

theorem presM_pushChunks (o : Nat → Bool) (n size : Nat) (path : String) :
    ∀ l, PresM (pushChunksM o noEnv n size path l) := by
  intro l
  induction l with
  | nil => exact presM_gpure []
  | cons hd tl ih =>
    obtain ⟨i, chunk⟩ := hd
    unfold pushChunksM
    apply presM_gbind (presM_emitLog _)
    intro _
    apply presM_gbind (presM_createBlob o _)
    intro sha
    apply presM_gbind ih
    intro items
    exact presM_gpure _

theorem presIfErr_uploadM (cfg : CDNConfig) (o : Nat → Bool) (name mimeType : String)
    (buffer : List Nat) (uniqueId ym iso : String) :
    PresIfErr (uploadM cfg o noEnv name mimeType buffer uniqueId ym iso) := by
  unfold uploadM
  apply presIfErr_gbind (presM_emitLog _)
  intro _
  apply presIfErr_gbind (presM_getRef o)
  intro baseSha
  apply presIfErr_gbind (presM_pushChunks o _ _ _ _)
  intro chunkItems
  apply presIfErr_gbind (presM_emitLog _)
  intro _
  apply presIfErr_gbind (presM_createBlob o _)
  intro mSha
  apply presIfErr_gbind (presM_emitLog _)
  intro _
  apply presIfErr_gbind (presM_listM cfg o)
  intro registry
  apply presIfErr_gbind (presM_createBlob o _)
  intro rSha
  apply presIfErr_gbind (presM_emitLog _)
  intro _
  apply presIfErr_gbind (presM_createTreeBase o _ _)
  intro treeSha
  apply presIfErr_gbind (presM_createCommit o _ _ _)
  intro commitSha
  apply presIfErr_gbind_neverErr (presIfErr_patchRef o _)
  intro _
  apply neverErr_gbind (neverErr_emitLog _)
  intro _
  apply neverErr_gbind (neverErr_emitLog _)
  intro _
  exact neverErr_gpure _

theorem pushChunksM_all_pass (o : Nat → Bool) (n size : Nat) (path : String) :
    ∀ (l : List (Nat × List Nat)) (st : Store) (ctr : Nat) (lg : List CDNLog),
      (∀ c, ctr ≤ c → c < ctr + l.length → o c = false) →
      ∃ items st2 lg2, pushChunksM o noEnv n size path l ⟨st, ctr, lg⟩ =
        (.ok items, ⟨st2, ctr + l.length, lg2⟩) := by
  intro l
  induction l with
  | nil =>
    intro st ctr lg _
    exact ⟨[], st, lg, by simp [pushChunksM, gpure]⟩
  | cons hd tl ih =>
    intro st ctr lg hpass
    obtain ⟨i, chunk⟩ := hd
    unfold pushChunksM
    rw [gbind_uploadEmit]
    have h0 : o ctr = false := hpass ctr (le_refl _) (by simp)
    rw [gbind_ok (request_createBlob_ok o _ _ _ _ h0)]
    obtain ⟨items, st2, lg2, hrun⟩ := ih
      { st with blobs := (st.fresh, Blob.raw chunk) :: st.blobs, fresh := st.fresh + 1 }
      (ctr + 1) _
      (fun c hc1 hc2 => hpass c (by omega) (by simp only [List.length_cons]; omega))
    rw [gbind_ok hrun]
    refine ⟨chunkEntry path i st.fresh :: items, st2, lg2, ?_⟩
    have harith : ctr + 1 + tl.length = ctr + ((i, chunk) :: tl).length := by
      simp only [List.length_cons]
      omega
    rw [← harith]
    rfl

theorem pushChunksM_fails (n size : Nat) (path : String) (j : Nat) :
    ∀ (l : List (Nat × List Nat)) (st : Store) (ctr : Nat) (lg : List CDNLog),
      ctr ≤ j → j < ctr + l.length →
      ∃ s2, pushChunksM (singleFail j) noEnv n size path l ⟨st, ctr, lg⟩ =
        (.error .apiError, s2) := by
  intro l
  induction l with
  | nil =>
    intro st ctr lg h1 h2
    simp at h2
    omega
  | cons hd tl ih =>
    intro st ctr lg h1 h2
    obtain ⟨i, chunk⟩ := hd
    unfold pushChunksM
    rw [gbind_uploadEmit]
    by_cases hj : ctr = j
    · rw [gbind_error (request_oracle_fail (singleFail j) noEnv _ _ _ _
        (by simp [singleFail, hj]))]
      exact ⟨_, rfl⟩
    · have h0 : singleFail j ctr = false := by
        simp [singleFail]
        omega
      rw [gbind_ok (request_createBlob_ok (singleFail j) _ _ _ _ h0)]
      obtain ⟨s2, hrun⟩ := ih
        { st with blobs := (st.fresh, Blob.raw chunk) :: st.blobs, fresh := st.fresh + 1 }
        (ctr + 1) _ (by omega) (by simp only [List.length_cons] at h2; omega)
      rw [gbind_error hrun]
      exact ⟨s2, rfl⟩

/-- C2 (amended): if `upload` fails — in particular if any chunk write, the
manifest write, or the registry write throws — the failure propagates, the
branch head is unchanged and the set of paths reachable from it is
unchanged.  (The registry *read* is the exception the claim's parenthetical
overlooks: its failure is swallowed by `list()`'s catch; see the
counterexample.) -/
theorem upload_atomic (cfg : CDNConfig) (name mimeType : String) (buffer : List Nat)
    (uniqueId ym iso : String) (s₀ : GitSt) (hwf : WF s₀.store) :
    (∀ oracle : Nat → Bool,
      exOk ((uploadM cfg oracle noEnv name mimeType buffer uniqueId ym iso s₀).1) = false →
      ((uploadM cfg oracle noEnv name mimeType buffer uniqueId ym iso s₀).2).store.head
          = s₀.store.head ∧
      pathsOfHead ((uploadM cfg oracle noEnv name mimeType buffer uniqueId ym iso s₀).2).store
          = pathsOfHead s₀.store) ∧
    (∀ j, s₀.ctr = 0 →
      ((1 ≤ j ∧ j ≤ totalChunksOf buffer.length + 1) ∨ j = totalChunksOf buffer.length + 3) →
      exOk ((uploadM cfg (singleFail j) noEnv name mimeType buffer uniqueId ym iso s₀).1)
        = false) := by
  constructor
  · intro oracle herr
    have hp := presIfErr_uploadM cfg oracle name mimeType buffer uniqueId ym iso s₀ herr
    exact ⟨hp.1, pathsOfHead_of_pres hwf hp⟩
  · intro j h0 hj
    obtain ⟨st0, c0, lg0⟩ := s₀
    have hc0 : c0 = 0 := h0
    subst hc0
    have hzlen : ((List.range (totalChunksOf buffer.length)).zip (uploadChunks buffer)).length
        = totalChunksOf buffer.length := by
      rw [List.length_zip, List.length_range, uploadChunks_length]
      exact min_self _
    have hj1 : 1 ≤ j := by rcases hj with ⟨h, _⟩ | h <;> omega
    simp only [uploadM]
    rw [gbind_uploadEmit]
    rw [gbind_ok (request_getRef_ok _ _ _ _ (by simp [singleFail]; omega))]
    rcases hj with ⟨hja, hjb⟩ | hj3
    · by_cases hjn : j ≤ totalChunksOf buffer.length
      · obtain ⟨s2, hrun⟩ := pushChunksM_fails _ _ _ j _ st0 1 _
          (by omega) (by rw [hzlen]; omega)
        rw [gbind_error hrun]
        rfl
      · have hjeq : j = totalChunksOf buffer.length + 1 := by omega
        obtain ⟨items, st2, lg2, hrun⟩ := pushChunksM_all_pass (singleFail j) _ _ _ _ st0 1 _
          (by
            intro c hc1 hc2
            rw [hzlen] at hc2
            simp [singleFail]
            omega)
        rw [gbind_ok hrun, gbind_uploadEmit]
        rw [gbind_error (request_oracle_fail _ _ _ _ _ _ (by
          rw [hzlen]
          simp [singleFail]
          omega))]
        rfl
    · obtain ⟨items, st2, lg2, hrun⟩ := pushChunksM_all_pass (singleFail j) _ _ _ _ st0 1 _
        (by
          intro c hc1 hc2
          rw [hzlen] at hc2
          simp [singleFail]
          omega)
      rw [gbind_ok hrun, gbind_uploadEmit]
      rw [gbind_ok (request_createBlob_ok _ _ _ _ _ (by
        rw [hzlen]
        simp [singleFail]
        omega))]
      rw [gbind_uploadEmit]
      obtain ⟨v, hlist⟩ := listM_noEnv_run cfg (singleFail j) _ _ _
      rw [gbind_ok hlist]
      rw [gbind_error (request_oracle_fail _ _ _ _ _ _ (by
        rw [hzlen]
        simp [singleFail]
        omega))]
      rfl

/-- Witness for the amended C2 at the sample store (every request failing:
upload fails, head and reachable paths are untouched). -/
theorem upload_atomic_witness :
    (WF sampleStore ∧
      exOk ((uploadM sampleCfg (fun _ => true) noEnv "f" "video/mp4" [1, 2, 3]
        "u1" "2025_02" "t1" sampleSt).1) = false) ∧
    ((uploadM sampleCfg (fun _ => true) noEnv "f" "video/mp4" [1, 2, 3]
        "u1" "2025_02" "t1" sampleSt).2).store.head = sampleSt.store.head :=
  ⟨⟨by decide, by decide⟩,
   ((upload_atomic sampleCfg "f" "video/mp4" [1, 2, 3] "u1" "2025_02" "t1" sampleSt
      (by decide)).1 (fun _ => true) (by decide)).1⟩

/-- C2 counterexample: the registry *read* (`/contents/registry.json`,
request number `totalChunks + 2`) is a store request issued before the final
branch-ref update, yet when it (and only it) throws, `upload` succeeds and
the branch head moves — the failure is not propagated and the store is not
left unchanged. -/
theorem upload_swallows_registry_read_failure :
    (3 : Nat) = totalChunksOf ([1, 2, 3] : List Nat).length + 2 ∧
    singleFail 3 3 = true ∧
    exOk ((uploadM sampleCfg (singleFail 3) noEnv "f" "video/mp4" [1, 2, 3]
      "u1" "2025_02" "t1" sampleSt).1) = true ∧
    ((uploadM sampleCfg (singleFail 3) noEnv "f" "video/mp4" [1, 2, 3]
      "u1" "2025_02" "t1" sampleSt).2).store.head ≠ sampleSt.store.head := by
  decide

/-! ### Claim C7 -/

theorem alookup_cons_self {α : Type} (k : Nat) (v : α) (m : List (Nat × α)) :
    alookup ((k, v) :: m) k = some v := by
  simp [alookup]

theorem bool_eq_false {b : Bool} (h : ¬ b = true) : b = false := by
  cases b
  · rfl
  · exact absurd rfl h

theorem request_getTree_ok (o : Nat → Bool) (st : Store) (ctr : Nat) (lg : List CDNLog)
    (sha : Nat) (entries : List TreeEntry) (ho : o ctr = false)
    (h : treeOfCommit st sha = some entries) :
    request o noEnv (getTreeEff sha) ⟨st, ctr, lg⟩ = (.ok entries, ⟨st, ctr + 1, lg⟩) := by
  rw [request_noEnv_eq]
  simp only []
  rw [if_neg (by simp [ho])]
  unfold treeOfCommit at h
  unfold getTreeEff
  rcases h1 : alookup st.commits sha with _ | c
  · simp only [h1] at h
    exact Option.noConfusion h
  · simp only [h1] at h
    simp only [h]

theorem request_getBlob_ok (o : Nat → Bool) (st : Store) (ctr : Nat) (lg : List CDNLog)
    (sha : Nat) (b : Blob) (ho : o ctr = false) (h : alookup st.blobs sha = some b) :
    request o noEnv (getBlobEff sha) ⟨st, ctr, lg⟩ = (.ok b, ⟨st, ctr + 1, lg⟩) := by
  rw [request_noEnv_eq]
  simp only []
  rw [if_neg (by simp [ho])]
  unfold getBlobEff
  simp only [h]

theorem request_createTree_ok (o : Nat → Bool) (st : Store) (ctr : Nat) (lg : List CDNLog)
    (entries : List TreeEntry) (ho : o ctr = false) :
    request o noEnv (createTreeEff entries) ⟨st, ctr, lg⟩ =
      (.ok st.fresh,
       ⟨{ st with trees := (st.fresh, entries) :: st.trees, fresh := st.fresh + 1 },
        ctr + 1, lg⟩) := by
  rw [request_noEnv_eq]
  simp only []
  rw [if_neg (by simp [ho])]
  rfl

theorem request_createCommit_ok (o : Nat → Bool) (st : Store) (ctr : Nat) (lg : List CDNLog)
    (msg : String) (treeId : Nat) (parents : List Nat) (ho : o ctr = false) :
    request o noEnv (createCommitEff msg treeId parents) ⟨st, ctr, lg⟩ =
      (.ok st.fresh,
       ⟨{ st with
            commits := (st.fresh,
              { message := msg, treeId := treeId, parents := parents }) :: st.commits,
            fresh := st.fresh + 1 },
        ctr + 1, lg⟩) := by
  rw [request_noEnv_eq]
  simp only []
  rw [if_neg (by simp [ho])]
  rfl

theorem request_patchRef_ok (o : Nat → Bool) (st : Store) (ctr : Nat) (lg : List CDNLog)
    (commitSha : Nat) (c : CommitObj) (ho : o ctr = false)
    (hc : alookup st.commits commitSha = some c) (hp : st.head ∈ c.parents) :
    request o noEnv (patchRefEff commitSha) ⟨st, ctr, lg⟩ =
      (.ok (), ⟨{ st with head := commitSha }, ctr + 1, lg⟩) := by
  rw [request_noEnv_eq]
  simp only []
  rw [if_neg (by simp [ho])]
  unfold patchRefEff
  simp only [hc]
  rw [if_pos hp]

theorem registryOfHead_elim {st : Store} {oldReg : List CDNAsset}
    (h : registryOfHead st = some oldReg) :
    ∃ entries e, treeOfCommit st st.head = some entries ∧
      entries.find? (fun i => i.path == "registry.json") = some e ∧
      alookup st.blobs e.sha = some (.registryDoc oldReg) := by
  unfold registryOfHead at h
  rcases h1 : treeOfCommit st st.head with _ | entries
  · simp only [h1] at h
    exact Option.noConfusion h
  · simp only [h1] at h
    rcases h2 : entries.find? (fun i => i.path == "registry.json") with _ | e
    · simp only [h2] at h
      exact Option.noConfusion h
    · simp only [h2] at h
      rcases h3 : alookup st.blobs e.sha with _ | b
      · simp only [h3] at h
        exact Option.noConfusion h
      · simp only [h3] at h
        cases b with
        | raw bytes =>
          exact Option.noConfusion (show (none : Option (List CDNAsset)) = some oldReg from h)
        | registryDoc a2 =>
          have h' : some a2 = some oldReg := h
          injection h' with h''
          exact ⟨entries, e, rfl, h2, by rw [h3, h'']⟩
        | manifestDoc m =>
          exact Option.noConfusion (show (none : Option (List CDNAsset)) = some oldReg from h)

theorem find?_filter_eq {α : Type} (p q : α → Bool) :
    ∀ l : List α, (∀ x ∈ l, p x = true → q x = true) →
      (l.filter q).find? p = l.find? p := by
  intro l
  induction l with
  | nil => intro _; rfl
  | cons x rest ih =>
    intro h
    have hrest := ih (fun y hy => h y (List.mem_cons_of_mem _ hy))
    by_cases hq : q x = true
    · simp only [List.filter, hq]
      by_cases hp : p x = true
      · simp only [List.find?, hp]
      · simp only [List.find?, bool_eq_false hp, hrest]
    · have hq' : q x = false := bool_eq_false hq
      have hp' : p x = false := by
        by_cases hp : p x = true
        · rw [h x (List.mem_cons_self _ _) hp] at hq'
          exact Bool.noConfusion hq'
        · exact bool_eq_false hp
      simp only [List.filter, hq', hrest, List.find?, hp']

theorem find?_filter_none {α : Type} (p q : α → Bool) :
    ∀ l : List α, (∀ x ∈ l, p x = true → q x = false) →
      (l.filter q).find? p = none := by
  intro l
  induction l with
  | nil => intro _; rfl
  | cons x rest ih =>
    intro h
    have hrest := ih (fun y hy => h y (List.mem_cons_of_mem _ hy))
    by_cases hq : q x = true
    · have hp' : p x = false := by
        by_cases hp : p x = true
        · rw [h x (List.mem_cons_self _ _) hp] at hq
          exact Bool.noConfusion hq
        · exact bool_eq_false hp
      simp only [List.filter, hq, List.find?, hp', hrest]
    · simp only [List.filter, bool_eq_false hq, hrest]

/-- The first `p`-match survives filtering by `q` whenever it itself passes
`q`. -/
theorem find?_filter_of_find? {α : Type} (p q : α → Bool) :
    ∀ (l : List α) (e : α), l.find? p = some e → q e = true →
      (l.filter q).find? p = some e := by
  intro l
  induction l with
  | nil =>
    intro e h _
    cases h
  | cons x rest ih =>
    intro e h hqe
    by_cases hp : p x = true
    · simp only [List.find?, hp] at h
      injection h with h'
      subst h'
      simp only [List.filter, hqe, List.find?, hp]
    · have hp' : p x = false := bool_eq_false hp
      simp only [List.find?, hp'] at h
      by_cases hq : q x = true
      · simp only [List.filter, hq, List.find?, hp']
        exact ih e h hqe
      · simp only [List.filter, bool_eq_false hq]
        exact ih e h hqe

/-- `find?` for the registry path commutes with a path-preserving map. -/
theorem find?_map_of_path (f : TreeEntry → TreeEntry)
    (hf : ∀ i, (f i).path = i.path) :
    ∀ (l : List TreeEntry) (e : TreeEntry),
      l.find? (fun i => i.path == "registry.json") = some e →
      (l.map f).find? (fun i => i.path == "registry.json") = some (f e) := by
  intro l
  induction l with
  | nil =>
    intro e h
    cases h
  | cons x rest ih =>
    intro e h
    by_cases hp : (x.path == "registry.json") = true
    · simp only [List.find?, hp] at h
      injection h with h'
      subst h'
      have hfx : ((f x).path == "registry.json") = true := by rw [hf x]; exact hp
      simp only [List.map, List.find?, hfx]
    · have hp' : (x.path == "registry.json") = false := bool_eq_false hp
      simp only [List.find?, hp'] at h
      have hfx : ((f x).path == "registry.json") = false := by rw [hf x]; exact hp'
      simp only [List.map, List.find?, hfx]
      exact ih e h

/-- The registry repoint of `delete`'s `finalTree` map. -/
theorem repoint_path (newSha : Nat) (i : TreeEntry) :
    ((if i.path == "registry.json" then
        ({ path := i.path, mode := i.mode, etype := i.etype, sha := newSha } : TreeEntry)
      else { path := i.path, mode := i.mode, etype := i.etype, sha := i.sha })).path
    = i.path := by
  split <;> rfl

theorem find?_repoint (newSha : Nat) :
    ∀ (l : List TreeEntry) (e : TreeEntry),
      l.find? (fun i => i.path == "registry.json") = some e → e.etype = "blob" →
      ((l.filter (fun i => i.etype == "blob")).map (fun i =>
          if i.path == "registry.json" then
            ({ path := i.path, mode := i.mode, etype := i.etype, sha := newSha } : TreeEntry)
          else { path := i.path, mode := i.mode, etype := i.etype, sha := i.sha })).find?
        (fun i => i.path == "registry.json")
      = some { path := e.path, mode := e.mode, etype := e.etype, sha := newSha } := by
  intro l e h hb
  have h1 : (l.filter (fun i => i.etype == "blob")).find?
      (fun i => i.path == "registry.json") = some e := by
    apply find?_filter_of_find? _ _ l e h
    show (e.etype == "blob") = true
    rw [hb]
    decide
  have h2 := find?_map_of_path (fun i =>
      if i.path == "registry.json" then
        ({ path := i.path, mode := i.mode, etype := i.etype, sha := newSha } : TreeEntry)
      else { path := i.path, mode := i.mode, etype := i.etype, sha := i.sha })
    (fun i => repoint_path newSha i)
    (l.filter (fun i => i.etype == "blob")) e h1
  have hpe : (e.path == "registry.json") = true := by
    have := List.find?_some h
    simpa using this
  simp only [h2]
  rw [if_pos hpe]

/-- C7: after every successful `delete(assetId, folderPath)` (registry entry
present as a blob, decoding to `oldReg`), the tree of the new branch head
contains no entry whose path starts with `folderPath`, and the registry
stored at the new head is `oldReg` without the asset — in particular it
contains no entry with id `assetId`. -/
theorem delete_purges (oracle : Nat → Bool) (assetId folderPath : String)
    (st0 : Store) (c0 : Nat) (lg0 : List CDNLog) (oldReg : List CDNAsset)
    (e : TreeEntry) (entries : List TreeEntry)
    (htree : treeOfCommit st0 st0.head = some entries)
    (hfind : entries.find? (fun i => i.path == "registry.json") = some e)
    (hetype : e.etype = "blob")
    (hblob : alookup st0.blobs e.sha = some (.registryDoc oldReg))
    (hok : exOk ((deleteM oracle noEnv assetId folderPath ⟨st0, c0, lg0⟩).1) = true) :
    (∀ p ∈ pathsOfHead ((deleteM oracle noEnv assetId folderPath ⟨st0, c0, lg0⟩).2).store,
      strStartsWith p folderPath = false) ∧
    registryOfHead ((deleteM oracle noEnv assetId folderPath ⟨st0, c0, lg0⟩).2).store
      = some (oldReg.filter (fun a => a.id != assetId)) ∧
    (∀ a ∈ oldReg.filter (fun a => a.id != assetId), a.id ≠ assetId) := by
  have hstart : strStartsWith "registry.json" folderPath = false := by
    by_cases hs : strStartsWith "registry.json" folderPath
    · exfalso
      unfold deleteM at hok
      rw [gbind_plainEmit] at hok
      by_cases ho0 : oracle c0
      · rw [gbind_error (request_oracle_fail oracle noEnv _ _ _ _ ho0)] at hok
        cases hok
      · rw [gbind_ok (request_getRef_ok _ _ _ _ (bool_eq_false ho0))] at hok
        rw [gbind_plainEmit] at hok
        by_cases ho1 : oracle (c0 + 1)
        · rw [gbind_error (request_oracle_fail oracle noEnv _ _ _ _ ho1)] at hok
          cases hok
        · rw [gbind_ok (request_getTree_ok _ _ _ _ _ _ (bool_eq_false ho1) htree)] at hok
          rw [gbind_plainEmit] at hok
          have hnone : (entries.filter
              (fun i => !(strStartsWith i.path folderPath))).find?
              (fun i => i.path == "registry.json") = none := by
            apply find?_filter_none
            intro x hx hpx
            have hxp : x.path = "registry.json" := by
              simpa using hpx
            rw [hxp, hs]
            rfl
          simp only [hnone] at hok
          cases hok
    · exact bool_eq_false hs
  have hfindF : (entries.filter
      (fun i => !(strStartsWith i.path folderPath))).find?
      (fun i => i.path == "registry.json") = some e := by
    rw [find?_filter_eq]
    · exact hfind
    · intro x hx hpx
      have hxp : x.path = "registry.json" := by simpa using hpx
      rw [hxp, hstart]
      rfl
  -- walk the pipeline
  unfold deleteM at hok ⊢
  rw [gbind_plainEmit] at hok ⊢
  by_cases ho0 : oracle c0
  · rw [gbind_error (request_oracle_fail oracle noEnv _ _ _ _ ho0)] at hok
    cases hok
  rw [gbind_ok (request_getRef_ok _ _ _ _ (bool_eq_false ho0))] at hok ⊢
  rw [gbind_plainEmit] at hok ⊢
  by_cases ho1 : oracle (c0 + 1)
  · rw [gbind_error (request_oracle_fail oracle noEnv _ _ _ _ ho1)] at hok
    cases hok
  rw [gbind_ok (request_getTree_ok _ _ _ _ _ _ (bool_eq_false ho1) htree)] at hok ⊢
  rw [gbind_plainEmit] at hok ⊢
  simp only [hfindF] at hok ⊢
  by_cases ho2 : oracle (c0 + 1 + 1)
  · rw [gbind_error (request_oracle_fail oracle noEnv _ _ _ _ ho2)] at hok
    cases hok
  rw [gbind_ok (request_getBlob_ok _ _ _ _ _ _ (bool_eq_false ho2) hblob)] at hok ⊢
  simp only [] at hok ⊢
  by_cases ho3 : oracle (c0 + 1 + 1 + 1)
  · rw [gbind_error (request_oracle_fail oracle noEnv _ _ _ _ ho3)] at hok
    cases hok
  rw [gbind_ok (request_createBlob_ok _ _ _ _ _ (bool_eq_false ho3))] at hok ⊢
  rw [gbind_plainEmit] at hok ⊢
  by_cases ho4 : oracle (c0 + 1 + 1 + 1 + 1)
  · rw [gbind_error (request_oracle_fail oracle noEnv _ _ _ _ ho4)] at hok
    cases hok
  rw [gbind_ok (request_createTree_ok _ _ _ _ _ (bool_eq_false ho4))] at hok ⊢
  by_cases ho5 : oracle (c0 + 1 + 1 + 1 + 1 + 1)
  · rw [gbind_error (request_oracle_fail oracle noEnv _ _ _ _ ho5)] at hok
    cases hok
  rw [gbind_ok (request_createCommit_ok _ _ _ _ _ _ _ (bool_eq_false ho5))] at hok ⊢
  by_cases ho6 : oracle (c0 + 1 + 1 + 1 + 1 + 1 + 1)
  · rw [gbind_error (request_oracle_fail oracle noEnv _ _ _ _ ho6)] at hok
    cases hok
  rw [gbind_ok (request_patchRef_ok _ _ _ _ _ _ (bool_eq_false ho6)
    (alookup_cons_self _ _ _) (by exact List.mem_singleton_self _))] at hok ⊢
  rw [gbind_plainEmit] at hok ⊢
  simp only [gbind, emitLog, gpure]
  -- the final store is now explicit
  refine ⟨?_, ?_, ?_⟩
  · intro p hp
    unfold pathsOfHead treeOfCommit at hp
    simp only [alookup_cons_self] at hp
    rw [List.mem_map] at hp
    obtain ⟨i, hi, hip⟩ := hp
    rw [List.mem_map] at hi
    obtain ⟨i0, hi0, hii⟩ := hi
    rw [List.mem_filter] at hi0
    have hi00 := hi0.1
    rw [List.mem_filter] at hi00
    have hns : (!strStartsWith i0.path folderPath) = true := hi00.2
    rw [← hip, ← hii, repoint_path]
    simp only [Bool.not_eq_true'] at hns
    exact hns
  · unfold registryOfHead treeOfCommit
    simp only [alookup_cons_self]
    rw [find?_repoint _ _ _ hfindF hetype]
    simp only [alookup_cons_self]
  · intro a ha
    rw [List.mem_filter] at ha
    have := ha.2
    simpa using this

/-- C7 witness: deleting `a1` from `sampleStore`. -/
theorem delete_purges_witness :
    (∀ p ∈ pathsOfHead ((deleteM neverFail noEnv "a1" "uploads/2025_01/a1_f.bin"
        ⟨sampleStore, 0, []⟩).2).store,
      strStartsWith p "uploads/2025_01/a1_f.bin" = false) ∧
    registryOfHead ((deleteM neverFail noEnv "a1" "uploads/2025_01/a1_f.bin"
        ⟨sampleStore, 0, []⟩).2).store
      = some ([sampleAsset].filter (fun a => a.id != "a1")) ∧
    (∀ a ∈ [sampleAsset].filter (fun a => a.id != "a1"), a.id ≠ "a1") :=
  delete_purges neverFail "a1" "uploads/2025_01/a1_f.bin" sampleStore 0 [] [sampleAsset]
    { path := "registry.json", mode := "100644", etype := "blob", sha := 2 }
    [{ path := "registry.json", mode := "100644", etype := "blob", sha := 2 },
     { path := "uploads/2025_01/a1_f.bin/chunk_1", mode := "100644", etype := "blob", sha := 3 },
     { path := "uploads/2025_01/a1_f.bin/manifest.json", mode := "100644",
       etype := "blob", sha := 4 }]
    (by decide) (by decide) (by decide) (by decide) (by decide)

/-! ### Claim C8 -/

theorem decodeManifests_length (st : Store) :
    ∀ (M : List TreeEntry) (ms : List CDNManifest),
      decodeManifests st M = some ms → ms.length = M.length := by
  intro M
  induction M with
  | nil =>
    intro ms h
    injection h with h'
    subst h'
    rfl
  | cons e rest ih =>
    intro ms h
    unfold decodeManifests at h
    rcases hb : alookup st.blobs e.sha with _ | b
    · simp only [hb] at h
      exact Option.noConfusion h
    · simp only [hb] at h
      cases b with
      | raw bytes =>
        exact Option.noConfusion (show (none : Option (List CDNManifest)) = some ms from h)
      | registryDoc a =>
        exact Option.noConfusion (show (none : Option (List CDNManifest)) = some ms from h)
      | manifestDoc m =>
        have h' : (decodeManifests st rest).map (fun ms => m :: ms) = some ms := h
        rcases hr : decodeManifests st rest with _ | ms2
        · rw [hr] at h'
          exact Option.noConfusion (show (none : Option (List CDNManifest)) = some ms from h')
        · rw [hr] at h'
          have h'' : some (m :: ms2) = some ms := h'
          injection h'' with h3
          subst h3
          simp only [List.length_cons, ih ms2 hr]

theorem gbind_exOk_ok {α β : Type} (m : GitM α) (f : α → GitM β) (s : GitSt)
    (h : exOk ((gbind m f s).1) = true) :
    ∃ a s', m s = (.ok a, s') := by
  rcases hm : m s with ⟨res, s'⟩
  cases res with
  | error e =>
    rw [gbind_error hm] at h
    cases h
  | ok a => exact ⟨a, s', rfl⟩

theorem request_createTreeBase_ok (o : Nat → Bool) (st : Store) (ctr : Nat)
    (lg : List CDNLog) (baseCommit : Nat) (items base : List TreeEntry)
    (ho : o ctr = false) (h : treeOfCommit st baseCommit = some base) :
    request o noEnv (createTreeBaseEff baseCommit items) ⟨st, ctr, lg⟩ =
      (.ok st.fresh,
       ⟨{ st with trees := (st.fresh, mergeEntries base items) :: st.trees,
                  fresh := st.fresh + 1 }, ctr + 1, lg⟩) := by
  rw [request_noEnv_eq]
  simp only []
  rw [if_neg (by simp [ho])]
  unfold treeOfCommit at h
  unfold createTreeBaseEff
  rcases h1 : alookup st.commits baseCommit with _ | c
  · simp only [h1] at h
    exact Option.noConfusion h
  · simp only [h1] at h
    simp only [h]

/-- Consing a blob does not change the commit/tree graph. -/
theorem treeOfCommit_blobCons (st : Store) (b : Blob) (sha k : Nat)
    (r : Option (List TreeEntry)) (h : treeOfCommit st k = r) :
    treeOfCommit
      { st with blobs := (sha, b) :: st.blobs, fresh := st.fresh + 1 } k = r := h

/-- GitHub's base-tree merge puts the new `registry.json` item in front of
`find?`: every base entry with that path is filtered out by the merge. -/
theorem find?_mergeEntries_registry (base : List TreeEntry) (item : TreeEntry)
    (hpath : item.path = "registry.json") :
    (mergeEntries base [item]).find? (fun e => e.path == "registry.json") = some item := by
  have hpi : (item.path == "registry.json") = true := by
    rw [hpath]
    decide
  unfold mergeEntries
  induction base with
  | nil => simp only [List.filter, List.nil_append, List.find?, hpi]
  | cons x rest ih =>
    by_cases hq : ([item].all (fun n => n.path != x.path)) = true
    · have hpx : (x.path == "registry.json") = false := by
        have h1 : (item.path != x.path) = true := by simpa using hq
        rw [hpath] at h1
        by_cases he : x.path = "registry.json"
        · rw [he] at h1
          exact absurd h1 (by decide)
        · simp [he]
      simp only [List.filter, hq, List.cons_append, List.find?, hpx]
      exact ih
    · simp only [List.filter, bool_eq_false hq]
      exact ih

/-- `sync`'s manifest loop on intact manifests: emits nothing, reads only,
and returns the derived assets in order (when no injected failure hits). -/
theorem syncLoopM_ok (cfg : CDNConfig) (o : Nat → Bool) :
    ∀ (M : List TreeEntry) (ms : List CDNManifest) (st : Store) (ctr : Nat)
      (lg : List CDNLog),
      decodeManifests st M = some ms →
      exOk ((syncLoopM cfg o noEnv M ⟨st, ctr, lg⟩).1) = true →
      syncLoopM cfg o noEnv M ⟨st, ctr, lg⟩ =
        (.ok (ms.map (deriveAsset cfg)), ⟨st, ctr + M.length, lg⟩) := by
  intro M
  induction M with
  | nil =>
    intro ms st ctr lg hdec _
    injection hdec with h'
    subst h'
    rfl
  | cons e rest ih =>
    intro ms st ctr lg hdec hok
    unfold decodeManifests at hdec
    rcases hb : alookup st.blobs e.sha with _ | b
    · simp only [hb] at hdec
      exact Option.noConfusion hdec
    · simp only [hb] at hdec
      cases b with
      | raw bytes =>
        exact Option.noConfusion (show (none : Option (List CDNManifest)) = some ms from hdec)
      | registryDoc a =>
        exact Option.noConfusion (show (none : Option (List CDNManifest)) = some ms from hdec)
      | manifestDoc m =>
        have hdec' : (decodeManifests st rest).map (fun ms => m :: ms) = some ms := hdec
        rcases hr : decodeManifests st rest with _ | ms2
        · rw [hr] at hdec'
          exact Option.noConfusion
            (show (none : Option (List CDNManifest)) = some ms from hdec')
        · rw [hr] at hdec'
          have hdec'' : some (m :: ms2) = some ms := hdec'
          injection hdec'' with h3
          subst h3
          unfold syncLoopM at hok ⊢
          by_cases ho : o ctr = true
          · rw [gbind_error (request_oracle_fail o noEnv _ _ _ _ ho)] at hok
            cases hok
          · rw [gbind_ok (request_getBlob_ok _ _ _ _ _ _ (bool_eq_false ho) hb)] at hok ⊢
            simp only [] at hok ⊢
            rcases hs : syncLoopM cfg o noEnv rest ⟨st, ctr + 1, lg⟩ with ⟨res, s2⟩
            cases res with
            | error err =>
              rw [gbind_error hs] at hok
              cases hok
            | ok v =>
              have hloop := ih ms2 st (ctr + 1) lg hr (by rw [hs]; rfl)
              rw [gbind_ok hloop]
              have harith : ctr + 1 + rest.length = ctr + (e :: rest).length := by
                simp only [List.length_cons]
                omega
              rw [harith]
              rfl

/-- C8: on a store whose current tree contains exactly `K` intact manifest
objects (paths ending in `manifest.json`, each decoding as a manifest),
every successful `sync()` returns `recovered = K` and republishes, as a full
replacement, a registry holding exactly the `K` assets derived from those
manifests' metadata. -/
theorem sync_recovers (cfg : CDNConfig) (oracle : Nat → Bool) (st0 : Store)
    (c0 : Nat) (lg0 : List CDNLog) (entries : List TreeEntry)
    (ms : List CDNManifest)
    (htree : treeOfCommit st0 st0.head = some entries)
    (hdec : decodeManifests st0
      (entries.filter (fun i => strEndsWith i.path "manifest.json")) = some ms)
    (hok : exOk ((syncM cfg oracle noEnv ⟨st0, c0, lg0⟩).1) = true) :
    (syncM cfg oracle noEnv ⟨st0, c0, lg0⟩).1
      = .ok (entries.filter (fun i => strEndsWith i.path "manifest.json")).length ∧
    registryOfHead ((syncM cfg oracle noEnv ⟨st0, c0, lg0⟩).2).store
      = some (ms.map (deriveAsset cfg)) ∧
    ms.length = (entries.filter (fun i => strEndsWith i.path "manifest.json")).length := by
  have hlen := decodeManifests_length st0 _ ms hdec
  unfold syncM at hok ⊢
  rw [gbind_plainEmit] at hok ⊢
  by_cases ho0 : oracle c0 = true
  · rw [gbind_error (request_oracle_fail oracle noEnv _ _ _ _ ho0)] at hok
    cases hok
  rw [gbind_ok (request_getRef_ok _ _ _ _ (bool_eq_false ho0))] at hok ⊢
  by_cases ho1 : oracle (c0 + 1) = true
  · rw [gbind_error (request_oracle_fail oracle noEnv _ _ _ _ ho1)] at hok
    cases hok
  rw [gbind_ok (request_getTree_ok _ _ _ _ _ _ (bool_eq_false ho1) htree)] at hok ⊢
  rw [gbind_plainEmit] at hok ⊢
  obtain ⟨v, s2, hm⟩ := gbind_exOk_ok _ _ _ hok
  have hloop := syncLoopM_ok cfg oracle _ ms st0 _ _ hdec (by rw [hm]; rfl)
  rw [gbind_ok hloop] at hok ⊢
  by_cases ho2 : oracle (c0 + 1 + 1 +
      (entries.filter (fun i => strEndsWith i.path "manifest.json")).length) = true
  · rw [gbind_error (request_oracle_fail oracle noEnv _ _ _ _ ho2)] at hok
    cases hok
  rw [gbind_ok (request_createBlob_ok _ _ _ _ _ (bool_eq_false ho2))] at hok ⊢
  by_cases ho3 : oracle (c0 + 1 + 1 +
      (entries.filter (fun i => strEndsWith i.path "manifest.json")).length + 1) = true
  · rw [gbind_error (request_oracle_fail oracle noEnv _ _ _ _ ho3)] at hok
    cases hok
  rw [gbind_ok (request_createTreeBase_ok _ _ _ _ _ _ _ (bool_eq_false ho3)
    (treeOfCommit_blobCons st0 _ _ _ _ htree))] at hok ⊢
  by_cases ho4 : oracle (c0 + 1 + 1 +
      (entries.filter (fun i => strEndsWith i.path "manifest.json")).length + 1 + 1) = true
  · rw [gbind_error (request_oracle_fail oracle noEnv _ _ _ _ ho4)] at hok
    cases hok
  rw [gbind_ok (request_createCommit_ok _ _ _ _ _ _ _ (bool_eq_false ho4))] at hok ⊢
  by_cases ho5 : oracle (c0 + 1 + 1 +
      (entries.filter (fun i => strEndsWith i.path "manifest.json")).length +
        1 + 1 + 1) = true
  · rw [gbind_error (request_oracle_fail oracle noEnv _ _ _ _ ho5)] at hok
    cases hok
  rw [gbind_ok (request_patchRef_ok _ _ _ _ _ _ (bool_eq_false ho5)
    (alookup_cons_self _ _ _) (by exact List.mem_singleton_self _))] at hok ⊢
  rw [gbind_plainEmit] at hok ⊢
  refine ⟨?_, ?_, ?_⟩
  · simp only [gbind, gpure, List.length_map, hlen]
  · unfold registryOfHead treeOfCommit
    simp only [gbind, gpure, alookup_cons_self]
    rw [find?_mergeEntries_registry _ _ rfl]
    simp only [alookup_cons_self]
  · exact hlen

/-- C8 witness: `sync()` on `sampleStore` (one intact manifest). -/
theorem sync_recovers_witness :
    (syncM sampleCfg neverFail noEnv ⟨sampleStore, 0, []⟩).1
      = .ok (([{ path := "registry.json", mode := "100644", etype := "blob", sha := 2 },
          { path := "uploads/2025_01/a1_f.bin/chunk_1", mode := "100644",
            etype := "blob", sha := 3 },
          { path := "uploads/2025_01/a1_f.bin/manifest.json", mode := "100644",
            etype := "blob", sha := 4 }] : List TreeEntry).filter
          (fun i => strEndsWith i.path "manifest.json")).length ∧
    registryOfHead ((syncM sampleCfg neverFail noEnv ⟨sampleStore, 0, []⟩).2).store
      = some ([sampleManifest].map (deriveAsset sampleCfg)) ∧
    ([sampleManifest] : List CDNManifest).length
      = (([{ path := "registry.json", mode := "100644", etype := "blob", sha := 2 },
          { path := "uploads/2025_01/a1_f.bin/chunk_1", mode := "100644",
            etype := "blob", sha := 3 },
          { path := "uploads/2025_01/a1_f.bin/manifest.json", mode := "100644",
            etype := "blob", sha := 4 }] : List TreeEntry).filter
          (fun i => strEndsWith i.path "manifest.json")).length :=
  sync_recovers sampleCfg neverFail sampleStore 0 []
    [{ path := "registry.json", mode := "100644", etype := "blob", sha := 2 },
     { path := "uploads/2025_01/a1_f.bin/chunk_1", mode := "100644",
       etype := "blob", sha := 3 },
     { path := "uploads/2025_01/a1_f.bin/manifest.json", mode := "100644",
       etype := "blob", sha := 4 }]
    [sampleManifest] (by decide) (by decide) (by decide)

/-! ### Claim C4 -/

/-- A request under `singleEnv k h2` is the same request against the store
whose head has been moved iff this is request number `k`. -/
theorem request_singleEnv {α : Type} (o : Nat → Bool) (k h2 : Nat)
    (eff : Store → Except GitErr (α × Store)) (st : Store) (ctr : Nat)
    (lg : List CDNLog) :
    request o (singleEnv k h2) eff ⟨st, ctr, lg⟩ =
      request o noEnv eff ⟨{ st with head := if ctr = k then h2 else st.head }, ctr, lg⟩ := by
  unfold request applyEnv singleEnv noEnv
  by_cases h : ctr = k
  · simp [h]
  · simp [h]

theorem request_getRef_singleEnv (k h2 : Nat) (st : Store) (ctr : Nat)
    (lg : List CDNLog) :
    request neverFail (singleEnv k h2) getRefEff ⟨st, ctr, lg⟩ =
      (.ok (if ctr = k then h2 else st.head),
       ⟨{ st with head := if ctr = k then h2 else st.head }, ctr + 1, lg⟩) := by
  rw [request_singleEnv, request_getRef_ok neverFail _ ctr lg rfl]

theorem request_createBlob_singleEnv (k h2 : Nat) (b : Blob) (st : Store) (ctr : Nat)
    (lg : List CDNLog) :
    request neverFail (singleEnv k h2) (createBlobEff b) ⟨st, ctr, lg⟩ =
      (.ok st.fresh,
       ⟨{ st with head := if ctr = k then h2 else st.head,
                  blobs := (st.fresh, b) :: st.blobs, fresh := st.fresh + 1 },
        ctr + 1, lg⟩) := by
  rw [request_singleEnv, request_createBlob_ok neverFail b _ ctr lg rfl]

theorem request_getTree_singleEnv (k h2 sha : Nat) (entries : List TreeEntry)
    (st : Store) (ctr : Nat) (lg : List CDNLog)
    (h : treeOfCommit st sha = some entries) :
    request neverFail (singleEnv k h2) (getTreeEff sha) ⟨st, ctr, lg⟩ =
      (.ok entries,
       ⟨{ st with head := if ctr = k then h2 else st.head }, ctr + 1, lg⟩) := by
  rw [request_singleEnv, request_getTree_ok neverFail _ ctr lg sha entries rfl ?ht]
  case ht => exact h

theorem request_getBlob_singleEnv (k h2 sha : Nat) (b : Blob)
    (st : Store) (ctr : Nat) (lg : List CDNLog)
    (h : alookup st.blobs sha = some b) :
    request neverFail (singleEnv k h2) (getBlobEff sha) ⟨st, ctr, lg⟩ =
      (.ok b,
       ⟨{ st with head := if ctr = k then h2 else st.head }, ctr + 1, lg⟩) := by
  rw [request_singleEnv, request_getBlob_ok neverFail _ ctr lg sha b rfl ?hb]
  case hb => exact h

theorem request_createTree_singleEnv (k h2 : Nat) (entries : List TreeEntry)
    (st : Store) (ctr : Nat) (lg : List CDNLog) :
    request neverFail (singleEnv k h2) (createTreeEff entries) ⟨st, ctr, lg⟩ =
      (.ok st.fresh,
       ⟨{ st with head := if ctr = k then h2 else st.head,
                  trees := (st.fresh, entries) :: st.trees, fresh := st.fresh + 1 },
        ctr + 1, lg⟩) := by
  rw [request_singleEnv, request_createTree_ok neverFail _ ctr lg entries rfl]

theorem request_createCommit_singleEnv (k h2 : Nat) (msg : String)
    (treeId : Nat) (parents : List Nat) (st : Store) (ctr : Nat) (lg : List CDNLog) :
    request neverFail (singleEnv k h2) (createCommitEff msg treeId parents) ⟨st, ctr, lg⟩ =
      (.ok st.fresh,
       ⟨{ st with
            head := if ctr = k then h2 else st.head,
            commits := (st.fresh,
              { message := msg, treeId := treeId, parents := parents }) :: st.commits,
            fresh := st.fresh + 1 },
        ctr + 1, lg⟩) := by
  rw [request_singleEnv, request_createCommit_ok neverFail _ ctr lg msg treeId parents rfl]

theorem request_createTreeBase_singleEnv (k h2 baseCommit : Nat)
    (items base : List TreeEntry) (st : Store) (ctr : Nat) (lg : List CDNLog)
    (h : treeOfCommit st baseCommit = some base) :
    request neverFail (singleEnv k h2) (createTreeBaseEff baseCommit items) ⟨st, ctr, lg⟩ =
      (.ok st.fresh,
       ⟨{ st with head := if ctr = k then h2 else st.head,
                  trees := (st.fresh, mergeEntries base items) :: st.trees,
                  fresh := st.fresh + 1 },
        ctr + 1, lg⟩) := by
  rw [request_singleEnv,
    request_createTreeBase_ok neverFail _ ctr lg baseCommit items base rfl ?hbase]
  case hbase => exact h

theorem request_patchRef_conflict (o : Nat → Bool) (st : Store) (ctr : Nat)
    (lg : List CDNLog) (commitSha : Nat) (c : CommitObj) (ho : o ctr = false)
    (hc : alookup st.commits commitSha = some c) (hp : st.head ∉ c.parents) :
    request o noEnv (patchRefEff commitSha) ⟨st, ctr, lg⟩ =
      (.error .publishConflict, ⟨st, ctr + 1, lg⟩) := by
  rw [request_noEnv_eq]
  simp only []
  rw [if_neg (by simp [ho])]
  unfold patchRefEff
  simp only [hc]
  rw [if_neg hp]

theorem request_patchRef_singleEnv_conflict (k h2 commitSha : Nat) (c : CommitObj)
    (st : Store) (ctr : Nat) (lg : List CDNLog)
    (hc : alookup st.commits commitSha = some c)
    (hp : (if ctr = k then h2 else st.head) ∉ c.parents) :
    request neverFail (singleEnv k h2) (patchRefEff commitSha) ⟨st, ctr, lg⟩ =
      (.error .publishConflict,
       ⟨{ st with head := if ctr = k then h2 else st.head }, ctr + 1, lg⟩) := by
  rw [request_singleEnv,
    request_patchRef_conflict neverFail _ ctr lg commitSha c rfl ?hc ?hp]
  case hc => exact hc
  case hp => exact hp

theorem listM_singleEnv_run (cfg : CDNConfig) (k h2 : Nat) (st : Store) (ctr : Nat)
    (lg : List CDNLog) :
    ∃ v, listM cfg neverFail (singleEnv k h2) ⟨st, ctr, lg⟩ =
      (.ok v, ⟨{ st with head := if ctr = k then h2 else st.head }, ctr + 1, lg⟩) := by
  have heq : listM cfg neverFail (singleEnv k h2) ⟨st, ctr, lg⟩ =
      listM cfg neverFail noEnv
        ⟨{ st with head := if ctr = k then h2 else st.head }, ctr, lg⟩ := by
    unfold listM
    rw [request_singleEnv]
  rw [heq]
  exact listM_noEnv_run cfg neverFail _ ctr lg

theorem treeOfCommit_congr (stA stB : Store) (hc : stA.commits = stB.commits)
    (ht : stA.trees = stB.trees) (sha : Nat) :
    treeOfCommit stA sha = treeOfCommit stB sha := by
  unfold treeOfCommit
  rw [hc, ht]

/-- The chunk loop under an interfering writer: it cannot fail, it serves
one request per chunk, it never touches commits or trees, and the head
after the loop is moved exactly when the move fell inside the loop's
request range. -/
theorem pushChunksM_singleEnv_ok (k h2 n size : Nat) (path : String) :
    ∀ (l : List (Nat × List Nat)) (st : Store) (ctr : Nat) (lg : List CDNLog),
      ∃ items st2 lg2,
        pushChunksM neverFail (singleEnv k h2) n size path l ⟨st, ctr, lg⟩ =
          (.ok items, ⟨st2, ctr + l.length, lg2⟩) ∧
        st2.head = (if ctr ≤ k ∧ k < ctr + l.length then h2 else st.head) ∧
        st2.commits = st.commits ∧ st2.trees = st.trees := by
  intro l
  induction l with
  | nil =>
    intro st ctr lg
    refine ⟨[], st, lg, by simp [pushChunksM, gpure], ?_, rfl, rfl⟩
    rw [if_neg (by simp only [List.length_nil]; omega)]
  | cons hd tl ih =>
    intro st ctr lg
    obtain ⟨i, chunk⟩ := hd
    unfold pushChunksM
    rw [gbind_uploadEmit]
    rw [gbind_ok (request_createBlob_singleEnv k h2 (.raw chunk) st ctr _)]
    obtain ⟨items, st2, lg2, hrun, hh, hc, ht⟩ := ih
      { st with head := if ctr = k then h2 else st.head,
                blobs := (st.fresh, Blob.raw chunk) :: st.blobs, fresh := st.fresh + 1 }
      (ctr + 1) _
    rw [gbind_ok hrun]
    refine ⟨chunkEntry path i st.fresh :: items, st2, lg2, ?_, ?_, ?_, ?_⟩
    · have harith : ctr + 1 + tl.length = ctr + ((i, chunk) :: tl).length := by
        simp only [List.length_cons]
        omega
      rw [← harith]
      rfl
    · rw [hh]
      simp only [List.length_cons]
      split_ifs <;> first | rfl | omega
    · exact hc
    · exact ht

/-- C4: for both mutating pipelines (`upload` and `delete`), if a concurrent
writer moves the branch head to a different commit `h2` at any time after
the head was read in step 1 and no later than the final branch-pointer
update, the pipeline fails with `PublishConflict` and the store's head still
points to `h2` — the concurrent snapshot is not silently overwritten.
(`patchRefEff` is modelled from the spec's §5/§6 guarded `updateRef`.) -/
theorem publish_conflict (cfg : CDNConfig) (k h2 : Nat) (st0 : Store)
    (lg0 : List CDNLog) (entries : List TreeEntry)
    (hk1 : 1 ≤ k) (hne : h2 ≠ st0.head)
    (htree : treeOfCommit st0 st0.head = some entries) :
    (∀ name mimeType buffer uniqueId ym iso,
      k ≤ totalChunksOf (List.length buffer) + 6 →
      (uploadM cfg neverFail (singleEnv k h2) name mimeType buffer uniqueId ym iso
          ⟨st0, 0, lg0⟩).1 = .error .publishConflict ∧
      ((uploadM cfg neverFail (singleEnv k h2) name mimeType buffer uniqueId ym iso
          ⟨st0, 0, lg0⟩).2).store.head = h2) ∧
    (∀ assetId folderPath e oldReg,
      k ≤ 6 →
      entries.find? (fun i => i.path == "registry.json") = some e →
      alookup st0.blobs e.sha = some (.registryDoc oldReg) →
      strStartsWith "registry.json" folderPath = false →
      (deleteM neverFail (singleEnv k h2) assetId folderPath ⟨st0, 0, lg0⟩).1
          = .error .publishConflict ∧
      ((deleteM neverFail (singleEnv k h2) assetId folderPath ⟨st0, 0, lg0⟩).2).store.head
          = h2) := by
  constructor
  · intro name mimeType buffer uniqueId ym iso hk2
    have hzlen : ((List.range (totalChunksOf buffer.length)).zip
        (uploadChunks buffer)).length = totalChunksOf buffer.length := by
      rw [List.length_zip, List.length_range, uploadChunks_length]
      exact min_self _
    simp only [uploadM]
    rw [gbind_uploadEmit]
    rw [gbind_ok (request_getRef_singleEnv k h2 st0 0 _)]
    rw [if_neg (show ¬(0 = k) by omega)]
    rw [show ({ st0 with head := st0.head } : Store) = st0 from rfl]
    obtain ⟨items, st2, lg2, hrun, hh2, hc2, ht2⟩ :=
      pushChunksM_singleEnv_ok k h2 (totalChunksOf buffer.length) buffer.length
        (uploadPath ym uniqueId name)
        ((List.range (totalChunksOf buffer.length)).zip (uploadChunks buffer)) st0 1 _
    rw [gbind_ok hrun]
    rw [hzlen] at hh2 ⊢
    rw [gbind_uploadEmit]
    rw [gbind_ok (request_createBlob_singleEnv k h2 _ _ _ _)]
    rw [gbind_uploadEmit]
    obtain ⟨vreg, hlist⟩ := listM_singleEnv_run cfg k h2 _ _ _
    rw [gbind_ok hlist]
    rw [gbind_ok (request_createBlob_singleEnv k h2 _ _ _ _)]
    rw [gbind_uploadEmit]
    rw [gbind_ok (request_createTreeBase_singleEnv k h2 _ _ _ _ _ _ ?hbase)]
    case hbase => exact (treeOfCommit_congr _ st0 hc2 ht2 st0.head).trans htree
    rw [gbind_ok (request_createCommit_singleEnv k h2 _ _ _ _ _ _)]
    rw [gbind_error (request_patchRef_singleEnv_conflict k h2 _ _ _ _ _ ?hcU ?hpU)]
    case hcU => exact alookup_cons_self _ _ _
    case hpU =>
      simp only [List.mem_singleton]
      intro hx
      split_ifs at hx <;> first
        | exact hne hx
        | (rw [hh2, if_pos (show 1 ≤ k ∧ k < 1 + totalChunksOf buffer.length by
            constructor <;> omega)] at hx
           exact hne hx)
    refine ⟨rfl, ?_⟩
    simp only []
    split_ifs <;> first
      | rfl
      | (rw [hh2, if_pos (show 1 ≤ k ∧ k < 1 + totalChunksOf buffer.length by
          constructor <;> omega)])
  · intro assetId folderPath e oldReg hk2 hfind hblob hstart
    have hfindF : (entries.filter
        (fun i => !(strStartsWith i.path folderPath))).find?
        (fun i => i.path == "registry.json") = some e := by
      rw [find?_filter_eq]
      · exact hfind
      · intro x hx hpx
        have hxp : x.path = "registry.json" := by simpa using hpx
        rw [hxp, hstart]
        rfl
    unfold deleteM
    rw [gbind_plainEmit]
    rw [gbind_ok (request_getRef_singleEnv k h2 st0 0 _)]
    rw [if_neg (show ¬(0 = k) by omega)]
    rw [show ({ st0 with head := st0.head } : Store) = st0 from rfl]
    rw [gbind_plainEmit]
    rw [gbind_ok (request_getTree_singleEnv k h2 _ entries _ _ _ ?ht1)]
    case ht1 => exact htree
    rw [gbind_plainEmit]
    simp only [hfindF]
    rw [gbind_ok (request_getBlob_singleEnv k h2 _ _ _ _ _ ?hb1)]
    case hb1 => exact hblob
    simp only []
    rw [gbind_ok (request_createBlob_singleEnv k h2 _ _ _ _)]
    rw [gbind_plainEmit]
    rw [gbind_ok (request_createTree_singleEnv k h2 _ _ _ _)]
    rw [gbind_ok (request_createCommit_singleEnv k h2 _ _ _ _ _ _)]
    rw [gbind_error (request_patchRef_singleEnv_conflict k h2 _ _ _ _ _ ?hcD ?hpD)]
    case hcD => exact alookup_cons_self _ _ _
    case hpD =>
      simp only [List.mem_singleton]
      intro hx
      split_ifs at hx <;> first | exact hne hx | omega
    refine ⟨rfl, ?_⟩
    simp only []
    split_ifs <;> first | rfl | omega

/-- C4 witness: head moved to commit 9 just before request 1 of each
pipeline on `sampleStore`. -/
theorem publish_conflict_witness :
    ((uploadM sampleCfg neverFail (singleEnv 1 9) "f" "video/mp4" [1, 2, 3]
        "u1" "2025_02" "t1" ⟨sampleStore, 0, []⟩).1 = .error .publishConflict ∧
     ((uploadM sampleCfg neverFail (singleEnv 1 9) "f" "video/mp4" [1, 2, 3]
        "u1" "2025_02" "t1" ⟨sampleStore, 0, []⟩).2).store.head = 9) ∧
    ((deleteM neverFail (singleEnv 1 9) "a1" "uploads/2025_01/a1_f.bin"
        ⟨sampleStore, 0, []⟩).1 = .error .publishConflict ∧
     ((deleteM neverFail (singleEnv 1 9) "a1" "uploads/2025_01/a1_f.bin"
        ⟨sampleStore, 0, []⟩).2).store.head = 9) :=
  ⟨(publish_conflict sampleCfg 1 9 sampleStore []
      [{ path := "registry.json", mode := "100644", etype := "blob", sha := 2 },
       { path := "uploads/2025_01/a1_f.bin/chunk_1", mode := "100644",
         etype := "blob", sha := 3 },
       { path := "uploads/2025_01/a1_f.bin/manifest.json", mode := "100644",
         etype := "blob", sha := 4 }]
      (by decide) (by decide) (by decide)).1
    "f" "video/mp4" [1, 2, 3] "u1" "2025_02" "t1" (by decide),
   (publish_conflict sampleCfg 1 9 sampleStore []
      [{ path := "registry.json", mode := "100644", etype := "blob", sha := 2 },
       { path := "uploads/2025_01/a1_f.bin/chunk_1", mode := "100644",
         etype := "blob", sha := 3 },
       { path := "uploads/2025_01/a1_f.bin/manifest.json", mode := "100644",
         etype := "blob", sha := 4 }]
      (by decide) (by decide) (by decide)).2
    "a1" "uploads/2025_01/a1_f.bin"
    { path := "registry.json", mode := "100644", etype := "blob", sha := 2 }
    [sampleAsset] (by decide) (by decide) (by decide) (by decide)⟩

end GithubCdn
